import Mathlib

/-!
Verification of the asset migration and consistency-verification engine
(storage migrator and storage-link verifier scripts).

Strings are modelled as `List Char` (`Str`); JavaScript runtime primitives
(`decodeURIComponent`, `TextEncoder`, regex tests on ASCII patterns) are
modelled explicitly below.  Each function of the scripts is translated
one-to-one; the migrator and verifier each carry their own copies of the
helpers they duplicate in the source.
-/

set_option autoImplicit false

namespace Iwate

abbrev Str := List Char

/-- Convert a Lean string literal to the `List Char` representation. -/
def strL (s : String) : Str := s.data

/-- Boolean prefix test on character lists (JS `String.startsWith`). -/
def startsWith : Str → Str → Bool
  | [], _ => true
  | _ :: _, [] => false
  | a :: as, b :: bs => a = b && startsWith as bs

/-- Split a character list on the separator character (JS `String.split("/")`):
`n` separators yield `n+1` (possibly empty) pieces. -/
def splitOnSlash : Str → List Str
  | [] => [[]]
  | c :: rest =>
    if c = '/' then [] :: splitOnSlash rest
    else
      match splitOnSlash rest with
      | [] => [[c]]
      | s :: ss => (c :: s) :: ss

/-- Join pieces with a slash separator (JS `Array.join("/")`). -/
def joinSlash : List Str → Str
  | [] => []
  | [s] => s
  | s :: rest => s ++ '/' :: joinSlash rest

/-- Value of an ASCII hex digit, upper or lower case. -/
def hexDigit? (c : Char) : Option Nat :=
  if '0' ≤ c ∧ c ≤ '9' then some (c.toNat - 48)
  else if 'a' ≤ c ∧ c ≤ 'f' then some (c.toNat - 87)
  else if 'A' ≤ c ∧ c ≤ 'F' then some (c.toNat - 55)
  else none

/-- One token of a percent-encoded string: a literal character or one
escaped byte `%HH`. -/
inductive UriTok where
  | lit (c : Char)
  | byte (b : Nat)
  deriving DecidableEq

/-- Tokenize a percent-encoded string; fails (like `decodeURIComponent`)
when a `%` is not followed by two hex digits. -/
def uriTokens? : Str → Option (List UriTok)
  | [] => some []
  | c :: rest =>
    if c = '%' then
      match rest with
      | h1 :: h2 :: rest2 =>
        match hexDigit? h1, hexDigit? h2 with
        | some a, some b =>
          match uriTokens? rest2 with
          | some ts => some (UriTok.byte (16 * a + b) :: ts)
          | none => none
        | _, _ => none
      | _ => none
    else
      match uriTokens? rest with
      | some ts => some (UriTok.lit c :: ts)
      | none => none

/-- Is `b` a UTF-8 continuation byte (`10xxxxxx`)? -/
def isCont (b : Nat) : Bool := 128 ≤ b && b ≤ 191

/-- Decode the token stream, assembling multi-byte UTF-8 sequences from
consecutive escaped bytes exactly as the ECMAScript `Decode` algorithm
does (strict UTF-8: no overlong forms, no surrogates, max U+10FFFF). -/
def decodeToks : List UriTok → Option Str
  | [] => some []
  | UriTok.lit c :: rest =>
    match decodeToks rest with
    | some s => some (c :: s)
    | none => none
  | UriTok.byte b :: rest =>
    if b < 128 then
      match decodeToks rest with
      | some s => some (Char.ofNat b :: s)
      | none => none
    else if 194 ≤ b ∧ b ≤ 223 then
      match rest with
      | UriTok.byte b1 :: rest1 =>
        if isCont b1 then
          match decodeToks rest1 with
          | some s => some (Char.ofNat ((b - 192) * 64 + (b1 - 128)) :: s)
          | none => none
        else none
      | _ => none
    else if 224 ≤ b ∧ b ≤ 239 then
      match rest with
      | UriTok.byte b1 :: UriTok.byte b2 :: rest2 =>
        if isCont b1 && isCont b2 &&
            (b ≠ 224 || 160 ≤ b1) && (b ≠ 237 || b1 ≤ 159) then
          match decodeToks rest2 with
          | some s =>
            some (Char.ofNat ((b - 224) * 4096 + (b1 - 128) * 64 + (b2 - 128)) :: s)
          | none => none
        else none
      | _ => none
    else if 240 ≤ b ∧ b ≤ 244 then
      match rest with
      | UriTok.byte b1 :: UriTok.byte b2 :: UriTok.byte b3 :: rest3 =>
        if isCont b1 && isCont b2 && isCont b3 &&
            (b ≠ 240 || 144 ≤ b1) && (b ≠ 244 || b1 ≤ 143) then
          match decodeToks rest3 with
          | some s =>
            some (Char.ofNat
              ((b - 240) * 262144 + (b1 - 128) * 4096 + (b2 - 128) * 64 + (b3 - 128)) :: s)
          | none => none
        else none
      | _ => none
    else none

/-- Model of the JS builtin `decodeURIComponent`: `none` models a thrown
`URIError`. -/
def decodeURIComponent (s : Str) : Option Str :=
  match uriTokens? s with
  | none => none
  | some ts => decodeToks ts

/-- UTF-8 bytes of one character (the JS `TextEncoder` on well-formed
strings). -/
def utf8Bytes (c : Char) : List Nat :=
  if c.toNat < 128 then [c.toNat]
  else if c.toNat < 2048 then [192 + c.toNat / 64, 128 + c.toNat % 64]
  else if c.toNat < 65536 then
    [224 + c.toNat / 4096, 128 + c.toNat / 64 % 64, 128 + c.toNat % 64]
  else
    [240 + c.toNat / 262144, 128 + c.toNat / 4096 % 64,
      128 + c.toNat / 64 % 64, 128 + c.toNat % 64]

/-- Lowercase hex digit for a value below 16. -/
def hexChar (n : Nat) : Char :=
  if n < 10 then Char.ofNat (48 + n) else Char.ofNat (87 + n)

/-- Two lowercase hex digits of a byte (JS `toString(16).padStart(2, "0")`
for values below 256). -/
def byteHex (b : Nat) : Str := [hexChar (b / 16), hexChar (b % 16)]

/-- Lowercase hex of the UTF-8 bytes of a string. -/
def utf8Hex (s : Str) : Str := (s.flatMap utf8Bytes).flatMap byteHex

/-- Membership in the character class `[A-Za-z0-9._-]`. -/
def asciiSafeChar (c : Char) : Bool :=
  ('A' ≤ c && c ≤ 'Z') || ('a' ≤ c && c ≤ 'z') || ('0' ≤ c && c ≤ '9') ||
    c = '.' || c = '_' || c = '-'

/-- The regex test `/^[A-Za-z0-9._-]+$/.test(segment)` (`ASCII_SAFE_SEGMENT`
 in both scripts). -/
def asciiSafeSegment (s : Str) : Bool :=
  !s.isEmpty && s.all asciiSafeChar

namespace Migrate

/-- decodeURIComponentSafe of the migrator: best-effort decode, returning
the input unchanged when decoding throws. -/
def decodeURIComponentSafe (value : Str) : Str :=
  match decodeURIComponent value with
  | some d => d
  | none => value

/-- toAsciiSafeStorageSegment of the migrator: keep an ASCII-safe segment,
otherwise replace it by `u` plus the lowercase hex of its UTF-8 bytes. -/
def toAsciiSafeStorageSegment (segment : Str) : Str :=
  if asciiSafeSegment segment then segment
  else 'u' :: utf8Hex segment

/-- toUploadKey of the migrator: split on `/`, drop empty segments,
best-effort percent-decode each segment, ASCII-safe-encode it, rejoin. -/
def toUploadKey (storagePath : Str) : Str :=
  joinSlash (((splitOnSlash storagePath).filter (fun s => !s.isEmpty)).map
    (fun segment => toAsciiSafeStorageSegment (decodeURIComponentSafe segment)))

end Migrate

namespace Verify

/-- decodeURIComponentSafe of the verifier (duplicate of the migrator's). -/
def decodeURIComponentSafe (value : Str) : Str :=
  match decodeURIComponent value with
  | some d => d
  | none => value

/-- toAsciiSafeStorageSegment of the verifier (duplicate of the
migrator's). -/
def toAsciiSafeStorageSegment (segment : Str) : Str :=
  if asciiSafeSegment segment then segment
  else 'u' :: utf8Hex segment

/-- canonicalizeStorageKey of the verifier: split on `/`, drop empty
segments, best-effort percent-decode each segment, ASCII-safe-encode it,
rejoin. -/
def canonicalizeStorageKey (storagePath : Str) : Str :=
  joinSlash (((splitOnSlash storagePath).filter (fun s => !s.isEmpty)).map
    (fun segment => toAsciiSafeStorageSegment (decodeURIComponentSafe segment)))

/-- The storage bucket name; the environment-variable overrides of the
scripts are modelled by their shared default value. -/
def BUCKET : Str := strL "iwate150data"

/-- The public-object URL marker `/storage/v1/object/public/<bucket>/`
used by the verifier's normalizeStoragePath. -/
def publicMarker : Str :=
  strL "/storage/v1/object/public/" ++ BUCKET ++ strL "/"

end Verify

/-- First index of an occurrence of `needle` in `hay`
(JS `String.indexOf`; `none` models the return value `-1`). -/
def subIndex? : Str → Str → Option Nat
  | needle, [] => if needle.isEmpty then some 0 else none
  | needle, c :: rest =>
    if startsWith needle (c :: rest) then some 0
    else (subIndex? needle rest).map (fun i => i + 1)

namespace Verify

/-- normalizeStoragePath of the verifier.  `none` input models a
null/undefined DB value; the result `Except.error ()` models a thrown
exception (the unguarded `decodeURIComponent` call throwing on a
malformed percent-encoding), `Except.ok none` models the `null` return
("not an asset path"). -/
def normalizeStoragePath (rawPath : Option Str) : Except Unit (Option Str) :=
  match rawPath with
  | none => Except.ok none
  | some s =>
    if s.isEmpty then Except.ok none
    else if startsWith (strL "http://") s || startsWith (strL "https://") s then
      match subIndex? publicMarker s with
      | none => Except.ok none
      | some i =>
        match decodeURIComponent (s.drop (i + publicMarker.length)) with
        | some d => Except.ok (some d)
        | none => Except.error ()
    else if startsWith (strL "/images/") s || startsWith (strL "/models/") s then
      Except.ok (some (s.drop 1))
    else if startsWith (strL "images/") s || startsWith (strL "models/") s then
      Except.ok (some s)
    else Except.ok none

end Verify

/-- Modelled from the spec (amended reading of the `normalize` contract):
an absolute URL is recognized by its scheme; when it contains the
bucket's public-object marker the key suffix after the marker is
percent-decoded (a malformed suffix makes the decode throw); `/images/`
and `/models/` paths lose the leading slash; bare `images/`-`models/`
paths pass through; every other shape is "not an asset path". -/
def normalizeSpec (raw : Option Str) : Except Unit (Option Str) :=
  match raw with
  | none => Except.ok none
  | some s =>
    if startsWith (strL "http://") s || startsWith (strL "https://") s then
      match subIndex? Verify.publicMarker s with
      | none => Except.ok none
      | some i =>
        match decodeURIComponent (s.drop (i + Verify.publicMarker.length)) with
        | some d => Except.ok (some d)
        | none => Except.error ()
    else if startsWith (strL "/images/") s || startsWith (strL "/models/") s then
      Except.ok (some (s.drop 1))
    else if startsWith (strL "images/") s || startsWith (strL "models/") s then
      Except.ok (some s)
    else Except.ok none

/-- Spec-side per-segment canonicalization, following the spec's words:
percent-decode best-effort (on decode failure use the raw segment
unchanged), keep the decoded segment iff it is ASCII-safe, otherwise
`u` plus lowercase hex of its UTF-8 bytes. -/
def segSpec (s : Str) : Str :=
  match decodeURIComponent s with
  | some d => if asciiSafeSegment d then d else 'u' :: utf8Hex d
  | none => if asciiSafeSegment s then s else 'u' :: utf8Hex s

/-- Spec-side key canonicalization: split on `/`, discard empty
segments, canonicalize each segment, rejoin with `/`. -/
def toObjectKeySpec (p : Str) : Str :=
  joinSlash (((splitOnSlash p).filter (fun s => !s.isEmpty)).map segSpec)

/-- ASCII lowercase conversion (the only case handling the scripts' data
needs; JS `toLowerCase` agrees on ASCII). -/
def lowerAscii (c : Char) : Char :=
  if 'A' ≤ c ∧ c ≤ 'Z' then Char.ofNat (c.toNat + 32) else c

/-- Lowercase an entire string. -/
def toLowerStr (s : Str) : Str := s.map lowerAscii

/-- Final path segment (Node `basename` on the slash-separated relative
paths that the scripts produce; those never end in a slash). -/
def basename (p : Str) : Str := ((splitOnSlash p).getLast?).getD []

/-- File extension with the dot (Node `extname`): the part of the
basename after its last dot, empty when the only dot is the leading one
of a dotfile. -/
def extname (p : Str) : Str :=
  let b := basename p
  if ('.' ∈ b.drop 1) then
    '.' :: (b.reverse.takeWhile (fun c => c ≠ '.')).reverse
  else []

namespace Migrate

/-- Asset source tree: legacy Flask static tree or current public tree. -/
inductive Source where
  | legacy
  | public
  deriving DecidableEq

/-- Image variant of a manifest entry. -/
inductive Variant where
  | full
  | thumb
  deriving DecidableEq

/-- AssetItem of the migrator (`bytes` is the field named `bytes` in the
source; the spec calls it `byteSize`, and `uploadPath` is the spec's
`uploadKey`). -/
structure AssetItem where
  localPath : Str
  storagePath : Str
  uploadPath : Str
  bytes : Nat
  source : Source
  variant : Variant
  deriving DecidableEq

/-- isImage of the migrator: extension allowlist for images. -/
def isImage (filePath : Str) : Bool :=
  let ext := toLowerStr (extname filePath)
  ext = strL ".jpg" || ext = strL ".jpeg" || ext = strL ".png" ||
    ext = strL ".webp" || ext = strL ".gif" || ext = strL ".svg"

/-- isModel of the migrator: extension allowlist for 3D models. -/
def isModel (filePath : Str) : Bool :=
  let ext := toLowerStr (extname filePath)
  ext = strL ".obj" || ext = strL ".mtl" || ext = strL ".fbx" ||
    ext = strL ".glb" || ext = strL ".gltf"

/-- detectContentType of the migrator: extension to MIME type table with
`application/octet-stream` default. -/
def detectContentType (filePath : Str) : Str :=
  let ext := toLowerStr (extname filePath)
  if ext = strL ".jpg" then strL "image/jpeg"
  else if ext = strL ".jpeg" then strL "image/jpeg"
  else if ext = strL ".png" then strL "image/png"
  else if ext = strL ".webp" then strL "image/webp"
  else if ext = strL ".gif" then strL "image/gif"
  else if ext = strL ".svg" then strL "image/svg+xml"
  else if ext = strL ".obj" then strL "model/obj"
  else if ext = strL ".mtl" then strL "text/plain"
  else if ext = strL ".fbx" then strL "model/fbx"
  else if ext = strL ".glb" then strL "model/gltf-binary"
  else if ext = strL ".gltf" then strL "model/gltf+json"
  else strL "application/octet-stream"

end Migrate

/-- First-occurrence deduplication (JS `[...new Set(xs)]`), with an
accumulator of already-seen values. -/
def dedupKeepFirstAux {α : Type} [DecidableEq α] : List α → List α → List α
  | _, [] => []
  | seen, a :: rest =>
    if a ∈ seen then dedupKeepFirstAux seen rest
    else a :: dedupKeepFirstAux (a :: seen) rest

/-- First-occurrence deduplication of a list. -/
def dedupKeepFirst {α : Type} [DecidableEq α] (l : List α) : List α :=
  dedupKeepFirstAux [] l

namespace Migrate

/-- getContentTypeCandidates of the migrator: the extension-derived MIME
type, extra fallbacks for `.fbx`, then `none` = no contentType
specified; first-occurrence deduplicated. -/
def getContentTypeCandidates (filePath : Str) : List (Option Str) :=
  let ext := toLowerStr (extname filePath)
  let primary := detectContentType filePath
  let candidates :=
    if ext = strL ".fbx" then
      [some primary, some (strL "application/octet-stream"), some (strL "text/plain"), none]
    else [some primary, none]
  dedupKeepFirst candidates

/-- mapLegacyImageToStoragePath of the migrator, on the path relative to
the legacy images root (the source computes this relative path from the
absolute one; backslash normalization is a Windows-separator no-op
here). -/
def mapLegacyImageToStoragePath (rel : Str) : Str :=
  if startsWith (strL "city_images/") rel then strL "images/cities/" ++ basename rel
  else if startsWith (strL "genre_images/") rel then strL "images/genres/" ++ basename rel
  else if startsWith (strL "spot_images/") rel then strL "images/spots/" ++ basename rel
  else if rel = strL "wanko.png" then strL "images/other/wanko.png"
  else strL "images/other/" ++ basename rel

/-- addItem of the migrator, on the insertion-ordered association list
modelling the JS `Map` keyed by storagePath: appends a new key, keeps an
existing entry except that a legacy item replaces a public one in
place. -/
def addItem : List AssetItem → AssetItem → List AssetItem
  | [], item => [item]
  | e :: rest, item =>
    if e.storagePath = item.storagePath then
      if e.source = Source.public ∧ item.source = Source.legacy then item :: rest
      else e :: rest
    else e :: addItem rest item

/-- toThumbStoragePath of the migrator: `images/thumb/<rest>` for image
paths not already under `images/thumb/`, `none` otherwise. -/
def toThumbStoragePath (storagePath : Str) : Option Str :=
  if !startsWith (strL "images/") storagePath then none
  else if startsWith (strL "images/thumb/") storagePath then none
  else some (strL "images/thumb/" ++ storagePath.drop (strL "images/").length)

/-- The full-variant manifest entry for one discovered image. -/
def fullImageItem (localPath storagePath : Str) (bytes : Nat) (source : Source) : AssetItem :=
  { localPath := localPath, storagePath := storagePath,
    uploadPath := toUploadKey storagePath, bytes := bytes,
    source := source, variant := Variant.full }

/-- The thumb-variant manifest entry synthesized for one discovered
image. -/
def thumbImageItem (localPath thumbPath : Str) (bytes : Nat) (source : Source) : AssetItem :=
  { localPath := localPath, storagePath := thumbPath,
    uploadPath := toUploadKey thumbPath, bytes := bytes,
    source := source, variant := Variant.thumb }

/-- addImageWithThumbAlias of the migrator: insert the full entry, then
the synthesized thumb alias when the path is eligible. -/
def addImageWithThumbAlias (target : List AssetItem) (localPath storagePath : Str)
    (bytes : Nat) (source : Source) : List AssetItem :=
  let t1 := addItem target (fullImageItem localPath storagePath bytes source)
  match toThumbStoragePath storagePath with
  | none => t1
  | some thumbPath => addItem t1 (thumbImageItem localPath thumbPath bytes source)

/-- One file discovered by the recursive directory walk: absolute local
path, path relative to the walked root, and size in bytes. -/
structure DiscoveredFile where
  localPath : Str
  rel : Str
  bytes : Nat
  deriving DecidableEq

/-- The files found under the four scanned roots; `collectAssets` is
deterministic given this input (the filesystem contents). -/
structure ScanInput where
  legacyImages : List DiscoveredFile
  legacyModels : List DiscoveredFile
  publicImages : List DiscoveredFile
  publicModels : List DiscoveredFile
  deriving DecidableEq

/-- The model manifest entry for one discovered model file. -/
def modelItem (f : DiscoveredFile) (source : Source) : AssetItem :=
  { localPath := f.localPath, storagePath := strL "models/" ++ f.rel,
    uploadPath := toUploadKey (strL "models/" ++ f.rel), bytes := f.bytes,
    source := source, variant := Variant.full }

/-- Lexicographic comparison of keys by character code, modelling the
`localeCompare` sort of the manifest (any total order gives the same
manifest membership facts). -/
def strLe : Str → Str → Bool
  | [], _ => true
  | _ :: _, [] => false
  | a :: as, b :: bs => if a = b then strLe as bs else decide (a < b)

/-- Deterministic final sort of the manifest by storagePath. -/
def sortByStoragePath (items : List AssetItem) : List AssetItem :=
  List.insertionSort (fun a b => strLe a.storagePath b.storagePath = true) items

/-- collectAssets of the migrator on the discovered files: walk the four
roots in source order, filter by extension, map legacy image layouts,
insert with dedup and thumb aliases, and sort. -/
def collectAssets (inp : ScanInput) : List AssetItem :=
  let m1 := inp.legacyImages.foldl
    (fun t f =>
      if isImage f.localPath then
        addImageWithThumbAlias t f.localPath (mapLegacyImageToStoragePath f.rel)
          f.bytes Source.legacy
      else t) []
  let m2 := inp.legacyModels.foldl
    (fun t f => if isModel f.localPath then addItem t (modelItem f Source.legacy) else t) m1
  let m3 := inp.publicImages.foldl
    (fun t f =>
      if isImage f.localPath then
        addImageWithThumbAlias t f.localPath (strL "images/" ++ f.rel) f.bytes Source.public
      else t) m2
  let m4 := inp.publicModels.foldl
    (fun t f => if isModel f.localPath then addItem t (modelItem f Source.public) else t) m3
  sortByStoragePath m4

/-- The entries inserted for one image discovery (full entry followed by
the synthesized thumb alias when eligible). -/
def imageItems (localPath storagePath : Str) (bytes : Nat) (source : Source) : List AssetItem :=
  fullImageItem localPath storagePath bytes source ::
    (match toThumbStoragePath storagePath with
     | none => []
     | some thumbPath => [thumbImageItem localPath thumbPath bytes source])

/-- The full insertion sequence that `collectAssets` feeds through
`addItem`, in source order. -/
def insertionItems (inp : ScanInput) : List AssetItem :=
  (inp.legacyImages.flatMap (fun f =>
      if isImage f.localPath then
        imageItems f.localPath (mapLegacyImageToStoragePath f.rel) f.bytes Source.legacy
      else []))
    ++ (inp.legacyModels.flatMap (fun f =>
      if isModel f.localPath then [modelItem f Source.legacy] else []))
    ++ (inp.publicImages.flatMap (fun f =>
      if isImage f.localPath then
        imageItems f.localPath (strL "images/" ++ f.rel) f.bytes Source.public
      else []))
    ++ (inp.publicModels.flatMap (fun f =>
      if isModel f.localPath then [modelItem f Source.public] else []))

/-- First manifest entry with the given storagePath (the JS `Map`
lookup, under the key-uniqueness invariant). -/
def findByKey (m : List AssetItem) (k : Str) : Option AssetItem :=
  m.find? (fun e => decide (e.storagePath = k))

/-- Evolution of the entry stored at one fixed key under one insertion:
absent keys are filled, a legacy item replaces a public entry, anything
else keeps the current entry. -/
def stepAt (cur : Option AssetItem) (item : AssetItem) : Option AssetItem :=
  match cur with
  | none => some item
  | some e =>
    if e.source = Source.public ∧ item.source = Source.legacy then some item
    else some e

/-- The keys of a manifest map. -/
def keysOf (m : List AssetItem) : List Str := m.map (fun e => e.storagePath)

/-- Retarget a full image entry to its thumb alias (same localPath,
bytes and source). -/
def thumbAliasOf (e : AssetItem) : AssetItem :=
  { localPath := e.localPath,
    storagePath := strL "images/thumb/" ++ e.storagePath.drop 7,
    uploadPath := toUploadKey (strL "images/thumb/" ++ e.storagePath.drop 7),
    bytes := e.bytes, source := e.source, variant := Variant.thumb }

/-- Result of one orchestrator run: the counters printed at completion,
the per-item action trace (true = uploaded, false = skipped), the keys
for which an upload call was made, and the final store contents. -/
structure RunResult where
  uploaded : Nat
  skipped : Nat
  actions : List Bool
  uploadedKeys : List Str
  store : List Str
  deriving DecidableEq

/-- The per-item loop of the orchestrator main: an item whose uploadPath
is in the in-memory existing set is counted skipped without an upload
call; otherwise the file is uploaded (upsert) and the key is added to
both the store (the external upload contract: a successful upsert makes
the object exist) and the in-memory set. -/
def runLoop : List AssetItem → List Str → List Str → RunResult
  | [], _, st => ⟨0, 0, [], [], st⟩
  | item :: rest, ex, st =>
    if item.uploadPath ∈ ex then
      let r := runLoop rest ex st
      ⟨r.uploaded, r.skipped + 1, false :: r.actions, r.uploadedKeys, r.store⟩
    else
      let r := runLoop rest (item.uploadPath :: ex) (item.uploadPath :: st)
      ⟨r.uploaded + 1, r.skipped, true :: r.actions, item.uploadPath :: r.uploadedKeys, r.store⟩

/-- The orchestrator main run after the bucket best-effort step: take
the one-time recursive listing result (which may fail), build the skip
cache from it (empty, with a logged warning, when the listing failed),
then process every manifest item in order. -/
def runOrchestrator (assets : List AssetItem) (listing : Except Str (List Str))
    (store : List Str) : RunResult :=
  let existingSet :=
    match listing with
    | Except.ok objectPaths => objectPaths
    | Except.error _ => []
  runLoop assets existingSet store

/-- Case-insensitive substring containment, on pre-lowercased text. -/
def containsSub : Str → Str → Bool
  | needle, [] => needle.isEmpty
  | needle, c :: rest => startsWith needle (c :: rest) || containsSub needle rest

/-- The regex test `/failed to parse json/i` on an error message. -/
def matchParseJson (m : Str) : Bool :=
  containsSub (strL "failed to parse json") (toLowerStr m)

/-- ASCII digit test (`\d`). -/
def isDigitChar (c : Char) : Bool := '0' ≤ c && c ≤ '9'

/-- The `5\d\d` alternative of the transient pattern. -/
def hasFiveDD : Str → Bool
  | [] => false
  | c :: rest =>
    (c = '5' &&
      (match rest with
       | a :: b :: _ => isDigitChar a && isDigitChar b
       | _ => false)) ||
      hasFiveDD rest

/-- TRANSIENT_ERROR_PATTERN of the migrator: the case-insensitive
alternation of transient failure markers. -/
def matchTransient (m : Str) : Bool :=
  containsSub (strL "failed to parse json") (toLowerStr m) ||
  containsSub (strL "unable to connect") (toLowerStr m) ||
  containsSub (strL "fetch failed") (toLowerStr m) ||
  containsSub (strL "network") (toLowerStr m) ||
  containsSub (strL "timeout") (toLowerStr m) ||
  containsSub (strL "temporarily") (toLowerStr m) ||
  hasFiveDD (toLowerStr m) ||
  containsSub (strL "internal server error") (toLowerStr m)

/-- JS regex line terminators, which `.` does not match. -/
def isLineTerm (c : Char) : Bool :=
  c = '\n' || c = '\r' || c = Char.ofNat 8232 || c = Char.ofNat 8233

/-- Occurrence of `needle` reachable without crossing a line
terminator. -/
def containsBeforeNL : Str → Str → Bool
  | needle, [] => needle.isEmpty
  | needle, c :: rest =>
    startsWith needle (c :: rest) || (!isLineTerm c && containsBeforeNL needle rest)

/-- Scan for `mime type ` followed (same line) by ` is not supported`,
on pre-lowercased text. -/
def mimeScan : Str → Bool
  | [] => false
  | c :: rest =>
    (startsWith (strL "mime type ") (c :: rest) &&
      containsBeforeNL (strL " is not supported") ((c :: rest).drop 10)) ||
      mimeScan rest

/-- The regex test `/mime type .* is not supported/i`. -/
def matchMime (m : Str) : Bool := mimeScan (toLowerStr m)

/-- Options passed to every storage upload call: upsert always true,
contentType only when a candidate is specified. -/
structure UploadOptions where
  upsert : Bool
  contentType : Option Str
  deriving DecidableEq

/-- Build the upload options for one candidate (source lines setting
`{ upsert: true }` plus the optional contentType). -/
def mkUploadOptions (contentType : Option Str) : UploadOptions :=
  { upsert := true, contentType := contentType }

/-- Index of the last slash of a key, accumulator form
(JS `lastIndexOf("/")`). -/
def lastSlashIndexAux : Str → Nat → Option Nat → Option Nat
  | [], _, acc => acc
  | c :: rest, i, acc =>
    lastSlashIndexAux rest (i + 1) (if c = '/' then some i else acc)

/-- Index of the last slash of a key, `none` when absent. -/
def lastSlashIndex? (s : Str) : Option Nat := lastSlashIndexAux s 0 none

/-- The (prefix, name) split of checkObjectExists: the listing is issued
for the parent prefix with a search filter equal to the object's final
name segment. -/
def splitObjectPath (objectPath : Str) : Str × Str :=
  match lastSlashIndex? objectPath with
  | none => ([], objectPath)
  | some i => (objectPath.take i, objectPath.drop (i + 1))

/-- One observable action of uploadWithMimeFallback: an upload call of
round `att` and candidate `idx` with its options and result (`none` =
success), an existence check (the name-filtered list call) with its
result, or a retry backoff sleep. -/
inductive MigEvent where
  | upload (att idx : Nat) (opts : UploadOptions) (res : Option Str)
  | existCheck (prefixPart namePart : Str) (res : Bool)
  | sleep (ms : Nat)
  deriving DecidableEq

/-- Oracle-call counters and the `lastError` variable of
uploadWithMimeFallback. -/
structure MigSt where
  upCount : Nat
  ecCount : Nat
  lastError : Option Str
  deriving DecidableEq

/-- Outcome of one pass over the candidate list. -/
inductive CandOutcome where
  | success
  | fatal (msg : Str)
  | transient
  | fellThrough
  deriving DecidableEq

/-- The error thrown for a failed item:
`upload failed: <path> (<last message or unknown error>)`. -/
def uploadFailedMsg (uploadPath : Str) (lastError : Option Str) : Str :=
  strL "upload failed: " ++ uploadPath ++ strL " (" ++
    (match lastError with
     | some m => m
     | none => strL "unknown error") ++ strL ")"

/-- The inner candidate loop of uploadWithMimeFallback: try each
content-type candidate in order; on success return; on an error
matching the parse-json pattern issue an existence check and treat a
present object as success; on a MIME rejection with a remaining
candidate move to the next candidate; on a transient error mark the
round for retry; otherwise abort the item with a descriptive error.
The upload and existence-check collaborators are oracles indexed by
call count; the event list records the calls made. -/
def candLoop (upl : Nat → Option Str) (exq : Nat → Bool) (uploadPath : Str) (att : Nat) :
    List (Option Str) → Nat → MigSt → CandOutcome × MigSt × List MigEvent
  | [], _, st => (CandOutcome.fellThrough, st, [])
  | ct :: rest, idx, st =>
    let res := upl st.upCount
    let st1 : MigSt := ⟨st.upCount + 1, st.ecCount, st.lastError⟩
    let ev := MigEvent.upload att idx (mkUploadOptions ct) res
    match res with
    | none => (CandOutcome.success, st1, [ev])
    | some msg =>
      let st2 : MigSt := ⟨st1.upCount, st1.ecCount, some msg⟩
      if matchParseJson msg then
        let ex := exq st2.ecCount
        let st3 : MigSt := ⟨st2.upCount, st2.ecCount + 1, st2.lastError⟩
        let ev2 := MigEvent.existCheck (splitObjectPath uploadPath).1
          (splitObjectPath uploadPath).2 ex
        if ex then (CandOutcome.success, st3, [ev, ev2])
        else if !rest.isEmpty && matchMime msg then
          match candLoop upl exq uploadPath att rest (idx + 1) st3 with
          | (o, st4, evs) => (o, st4, ev :: ev2 :: evs)
        else if matchTransient msg then (CandOutcome.transient, st3, [ev, ev2])
        else (CandOutcome.fatal (uploadFailedMsg uploadPath (some msg)), st3, [ev, ev2])
      else if !rest.isEmpty && matchMime msg then
        match candLoop upl exq uploadPath att rest (idx + 1) st2 with
        | (o, st4, evs) => (o, st4, ev :: evs)
      else if matchTransient msg then (CandOutcome.transient, st2, [ev])
      else (CandOutcome.fatal (uploadFailedMsg uploadPath (some msg)), st2, [ev])

/-- The outer retry loop of uploadWithMimeFallback: up to `fuel`
remaining rounds (4 at top level); a transient round sleeps
`(att+1) × 1000` ms and retries the full candidate loop unless it was
the last round; `none` means the loop ended without returning or
throwing (break). -/
def uploadAttempts (upl : Nat → Option Str) (exq : Nat → Bool) (uploadPath : Str)
    (cands : List (Option Str)) :
    Nat → Nat → MigSt → Option (Except Str Unit) × MigSt × List MigEvent
  | 0, _, st => (none, st, [])
  | fuel + 1, att, st =>
    match candLoop upl exq uploadPath att cands 0 st with
    | (CandOutcome.success, st', evs) => (some (Except.ok ()), st', evs)
    | (CandOutcome.fatal m, st', evs) => (some (Except.error m), st', evs)
    | (CandOutcome.fellThrough, st', evs) => (none, st', evs)
    | (CandOutcome.transient, st', evs) =>
      if fuel = 0 then (none, st', evs)
      else
        match uploadAttempts upl exq uploadPath cands fuel (att + 1) st' with
        | (r, st2, evs2) => (r, st2, evs ++ MigEvent.sleep ((att + 1) * 1000) :: evs2)

/-- uploadWithMimeFallback of the migrator: candidate loop with up to 4
rounds, and, when the loop ends with an ambiguous parse-json last
error, one final existence check before the item is declared failed. -/
def uploadWithMimeFallback (upl : Nat → Option Str) (exq : Nat → Bool)
    (localPath uploadPath : Str) : Except Str Unit × MigSt × List MigEvent :=
  match uploadAttempts upl exq uploadPath (getContentTypeCandidates localPath) 4 0 ⟨0, 0, none⟩ with
  | (some r, st, evs) => (r, st, evs)
  | (none, st, evs) =>
    match st.lastError with
    | some m =>
      if matchParseJson m then
        let ex := exq st.ecCount
        let st2 : MigSt := ⟨st.upCount, st.ecCount + 1, st.lastError⟩
        let ev := MigEvent.existCheck (splitObjectPath uploadPath).1
          (splitObjectPath uploadPath).2 ex
        if ex then (Except.ok (), st2, evs ++ [ev])
        else (Except.error (uploadFailedMsg uploadPath (some m)), st2, evs ++ [ev])
      else (Except.error (uploadFailedMsg uploadPath (some m)), st, evs)
    | none => (Except.error (uploadFailedMsg uploadPath none), st, evs)

/-- The trace-level guarantees of one candidate-loop pass, used to
assemble the retry-loop guarantees: every upload event belongs to this
round with an in-range candidate index; no sleeps; existence checks are
name-filtered on the object's split path and a positive one ends the
pass successfully; a parse-json upload error is immediately followed by
an existence check; a transient outcome is witnessed by a transient
upload error; a fatal outcome is the trailing upload error, neither
transient nor recoverable, and is recorded in lastError. -/
structure CandSpec (uploadPath : Str) (att idx cLen : Nat) (st : MigSt)
    (o : CandOutcome) (st' : MigSt) (evs : List MigEvent) : Prop where
  rounds : ∀ (n a i : Nat) (opts : UploadOptions) (res : Option Str), evs[n]? = some (MigEvent.upload a i opts res) → a = att
  idxs : ∀ (n a i : Nat) (opts : UploadOptions) (res : Option Str), evs[n]? = some (MigEvent.upload a i opts res) →
    idx ≤ i ∧ i < cLen
  noSleep : ∀ (n ms : Nat), evs[n]? ≠ some (MigEvent.sleep ms)
  ecParams : ∀ (n : Nat) (pp nn : Str) (x : Bool), evs[n]? = some (MigEvent.existCheck pp nn x) →
    pp = (splitObjectPath uploadPath).1 ∧ nn = (splitObjectPath uploadPath).2
  ecTrue : ∀ (n : Nat) (pp nn : Str), evs[n]? = some (MigEvent.existCheck pp nn true) →
    o = CandOutcome.success ∧ evs.length = n + 1
  parseAdj : ∀ (n a i : Nat) (opts : UploadOptions) (m : Str), evs[n]? = some (MigEvent.upload a i opts (some m)) →
    matchParseJson m = true → ∃ x, evs[n + 1]? = some (MigEvent.existCheck
      (splitObjectPath uploadPath).1 (splitObjectPath uploadPath).2 x)
  transientWitness : o = CandOutcome.transient → ∃ (n i : Nat) (opts : UploadOptions) (m : Str),
    evs[n]? = some (MigEvent.upload att i opts (some m)) ∧ matchTransient m = true
  fatalSpec : ∀ fm, o = CandOutcome.fatal fm → ∃ (n i : Nat) (opts : UploadOptions) (m : Str),
    evs[n]? = some (MigEvent.upload att i opts (some m)) ∧ evs.length = n + 1 ∧
    fm = uploadFailedMsg uploadPath (some m) ∧ matchTransient m = false ∧
    st'.lastError = some m
  badFatal : ∀ (n a i : Nat) (opts : UploadOptions) (m : Str), evs[n]? = some (MigEvent.upload a i opts (some m)) →
    matchTransient m = false → ¬(matchMime m = true ∧ i + 1 < cLen) →
    o = CandOutcome.fatal (uploadFailedMsg uploadPath (some m)) ∧ evs.length = n + 1
  fell : o = CandOutcome.fellThrough → evs = [] ∧ st' = st ∧ idx = cLen
  headUpload : idx < cLen → ∃ (opts : UploadOptions) (res : Option Str),
    evs[0]? = some (MigEvent.upload att idx opts res)

/-- The trace-level guarantees of the retry loop with `fuel` remaining
rounds starting at round `att`. -/
structure AttSpec (uploadPath : Str) (att fuel cLen : Nat) (st : MigSt)
    (r : Option (Except Str Unit)) (st' : MigSt) (evs : List MigEvent) : Prop where
  rounds : ∀ (n a i : Nat) (opts : UploadOptions) (res : Option Str), evs[n]? = some (MigEvent.upload a i opts res) →
    att ≤ a ∧ a < att + fuel
  idxs : ∀ (n a i : Nat) (opts : UploadOptions) (res : Option Str), evs[n]? = some (MigEvent.upload a i opts res) → i < cLen
  ecParams : ∀ (n : Nat) (pp nn : Str) (x : Bool), evs[n]? = some (MigEvent.existCheck pp nn x) →
    pp = (splitObjectPath uploadPath).1 ∧ nn = (splitObjectPath uploadPath).2
  ecTrue : ∀ (n : Nat) (pp nn : Str), evs[n]? = some (MigEvent.existCheck pp nn true) →
    r = some (Except.ok ())
  parseAdj : ∀ (n a i : Nat) (opts : UploadOptions) (m : Str), evs[n]? = some (MigEvent.upload a i opts (some m)) →
    matchParseJson m = true → ∃ x, evs[n + 1]? = some (MigEvent.existCheck
      (splitObjectPath uploadPath).1 (splitObjectPath uploadPath).2 x)
  sleepAdj : ∀ (n ms : Nat), evs[n]? = some (MigEvent.sleep ms) → ∃ a, att ≤ a ∧
    a + 1 < att + fuel ∧ ms = (a + 1) * 1000 ∧
    ∃ opts res, evs[n + 1]? = some (MigEvent.upload (a + 1) 0 opts res)
  prevTransient : ∀ (n a i : Nat) (opts : UploadOptions) (res : Option Str), evs[n]? = some (MigEvent.upload a i opts res) →
    ∀ b, att ≤ b → b < a → ∃ (n2 i2 : Nat) (opts2 : UploadOptions) (m2 : Str),
      evs[n2]? = some (MigEvent.upload b i2 opts2 (some m2)) ∧ matchTransient m2 = true
  badFatal : ∀ (n a i : Nat) (opts : UploadOptions) (m : Str), evs[n]? = some (MigEvent.upload a i opts (some m)) →
    matchTransient m = false → ¬(matchMime m = true ∧ i + 1 < cLen) →
    r = some (Except.error (uploadFailedMsg uploadPath (some m))) ∧ evs.length = n + 1
  fatalSpec : ∀ fm, r = some (Except.error fm) → ∃ m, st'.lastError = some m ∧
    matchTransient m = false ∧ fm = uploadFailedMsg uploadPath (some m)
  headUpload : 0 < cLen → 0 < fuel → ∃ (opts : UploadOptions) (res : Option Str),
    evs[0]? = some (MigEvent.upload att 0 opts res)

/-- The guarantees of the full uploadWithMimeFallback trace, feeding the
ambiguous-recovery and retry-policy claims: at most 4 rounds with
in-range candidate indices; name-filtered existence checks, a positive
one implying overall success; a parse-json upload error immediately
followed by an existence check; every backoff sleep of (a+1)*1000 ms
immediately before the first upload of round a+1; every round justified
by transient errors of all earlier rounds; a non-transient
non-recoverable error aborting the item at once with the descriptive
message; and, when the item is declared failed on an ambiguous
parse-json last error, a final negative existence check as the trace's
last event. -/
structure WMFSpec (localPath uploadPath : Str) (out : Except Str Unit)
    (st : MigSt) (tr : List MigEvent) : Prop where
  rounds : ∀ (n a i : Nat) (opts : UploadOptions) (res : Option Str),
    tr[n]? = some (MigEvent.upload a i opts res) → a < 4
  idxs : ∀ (n a i : Nat) (opts : UploadOptions) (res : Option Str),
    tr[n]? = some (MigEvent.upload a i opts res) →
    i < (getContentTypeCandidates localPath).length
  ecParams : ∀ (n : Nat) (pp nn : Str) (x : Bool),
    tr[n]? = some (MigEvent.existCheck pp nn x) →
    pp = (splitObjectPath uploadPath).1 ∧ nn = (splitObjectPath uploadPath).2
  ecTrue : ∀ (n : Nat) (pp nn : Str), tr[n]? = some (MigEvent.existCheck pp nn true) →
    out = Except.ok ()
  parseAdj : ∀ (n a i : Nat) (opts : UploadOptions) (m : Str),
    tr[n]? = some (MigEvent.upload a i opts (some m)) → matchParseJson m = true →
    ∃ (x : Bool), tr[n + 1]? = some (MigEvent.existCheck (splitObjectPath uploadPath).1
      (splitObjectPath uploadPath).2 x)
  sleepAdj : ∀ (n ms : Nat), tr[n]? = some (MigEvent.sleep ms) → ∃ (a : Nat), a + 1 < 4 ∧
    ms = (a + 1) * 1000 ∧ ∃ (opts : UploadOptions) (res : Option Str),
      tr[n + 1]? = some (MigEvent.upload (a + 1) 0 opts res)
  prevTransient : ∀ (n a i : Nat) (opts : UploadOptions) (res : Option Str),
    tr[n]? = some (MigEvent.upload a i opts res) → ∀ (b : Nat), b < a →
    ∃ (n2 i2 : Nat) (opts2 : UploadOptions) (m2 : Str),
      tr[n2]? = some (MigEvent.upload b i2 opts2 (some m2)) ∧ matchTransient m2 = true
  badFatal : ∀ (n a i : Nat) (opts : UploadOptions) (m : Str),
    tr[n]? = some (MigEvent.upload a i opts (some m)) → matchTransient m = false →
    ¬(matchMime m = true ∧ i + 1 < (getContentTypeCandidates localPath).length) →
    out = Except.error (uploadFailedMsg uploadPath (some m)) ∧ tr.length = n + 1
  finalCheck : ∀ (fm m : Str), out = Except.error fm → st.lastError = some m →
    matchParseJson m = true →
    tr[tr.length - 1]? = some (MigEvent.existCheck (splitObjectPath uploadPath).1
      (splitObjectPath uploadPath).2 false)

end Migrate

/-- C1: the migrator's key canonicalization and the verifier's key
canonicalization are equal as functions on every input path. -/
theorem uploadKey_eq_canonicalizeStorageKey :
    ∀ storagePath : Str,
      Migrate.toUploadKey storagePath = Verify.canonicalizeStorageKey storagePath := by
  intro storagePath
  rfl

theorem map_eq_self_of {α : Type} (f : α → α) :
    ∀ l : List α, (∀ a ∈ l, f a = a) → l.map f = l := by
  intro l
  induction l with
  | nil => intro _; rfl
  | cons a t ih =>
    intro h
    simp only [List.map_cons, h a (List.mem_cons_self a t),
      ih (fun b hb => h b (List.mem_cons_of_mem a hb))]

theorem splitOnSlash_cons (c : Char) (rest : Str) :
    splitOnSlash (c :: rest) =
      if c = '/' then [] :: splitOnSlash rest
      else
        match splitOnSlash rest with
        | [] => [[c]]
        | s :: ss => (c :: s) :: ss := rfl

theorem splitOnSlash_ne_nil (s : Str) : splitOnSlash s ≠ [] := by
  cases s with
  | nil => simp [splitOnSlash]
  | cons c rest =>
    rw [splitOnSlash_cons]
    by_cases hc : c = '/'
    · simp [hc]
    · rw [if_neg hc]
      cases h : splitOnSlash rest <;> simp

theorem joinSlash_cons_cons (s t : Str) (rest : List Str) :
    joinSlash (s :: t :: rest) = s ++ '/' :: joinSlash (t :: rest) := rfl

theorem joinSlash_splitOnSlash (s : Str) : joinSlash (splitOnSlash s) = s := by
  induction s with
  | nil => rfl
  | cons c rest ih =>
    rw [splitOnSlash_cons]
    by_cases hc : c = '/'
    · subst hc
      rw [if_pos rfl]
      cases h : splitOnSlash rest with
      | nil => exact absurd h (splitOnSlash_ne_nil rest)
      | cons s ss =>
        rw [h] at ih
        rw [joinSlash_cons_cons, List.nil_append, ih]
    · rw [if_neg hc]
      cases h : splitOnSlash rest with
      | nil => exact absurd h (splitOnSlash_ne_nil rest)
      | cons s ss =>
        rw [h] at ih
        cases ss with
        | nil =>
          show joinSlash [c :: s] = c :: rest
          exact congrArg (List.cons c) ih
        | cons t ts =>
          show joinSlash ((c :: s) :: t :: ts) = c :: rest
          rw [joinSlash_cons_cons] at ih ⊢
          rw [List.cons_append, ih]

theorem splitOnSlash_noSlash (s : Str) (h : ∀ c ∈ s, c ≠ '/') :
    splitOnSlash s = [s] := by
  induction s with
  | nil => rfl
  | cons c rest ih =>
    have hc : c ≠ '/' := h c (List.mem_cons_self c rest)
    rw [splitOnSlash_cons, if_neg hc,
      ih (fun b hb => h b (List.mem_cons_of_mem c hb))]

theorem splitOnSlash_append (s rest : Str) (h : ∀ c ∈ s, c ≠ '/') :
    splitOnSlash (s ++ '/' :: rest) = s :: splitOnSlash rest := by
  induction s with
  | nil => rw [List.nil_append, splitOnSlash_cons, if_pos rfl]
  | cons c t ih =>
    have hc : c ≠ '/' := h c (List.mem_cons_self c t)
    rw [List.cons_append, splitOnSlash_cons, if_neg hc,
      ih (fun b hb => h b (List.mem_cons_of_mem c hb))]

theorem splitOnSlash_joinSlash (segs : List Str) (h0 : segs ≠ [])
    (h : ∀ s ∈ segs, ∀ c ∈ s, c ≠ '/') :
    splitOnSlash (joinSlash segs) = segs := by
  induction segs with
  | nil => exact absurd rfl h0
  | cons s ss ih =>
    cases ss with
    | nil =>
      exact splitOnSlash_noSlash s (h s (List.mem_cons_self s []))
    | cons t ts =>
      rw [joinSlash_cons_cons,
        splitOnSlash_append s _ (h s (List.mem_cons_self s (t :: ts))),
        ih (by simp) (fun u hu => h u (List.mem_cons_of_mem s hu))]

theorem safeChar_ne_slash {c : Char} (h : asciiSafeChar c = true) : c ≠ '/' := by
  intro hc
  subst hc
  exact absurd h (by decide)

theorem safeChar_ne_percent {c : Char} (h : asciiSafeChar c = true) : c ≠ '%' := by
  intro hc
  subst hc
  exact absurd h (by decide)

theorem safeSeg_parts {s : Str} (h : asciiSafeSegment s = true) :
    s ≠ [] ∧ ∀ c ∈ s, asciiSafeChar c = true := by
  have h2 := h
  unfold asciiSafeSegment at h2
  rw [Bool.and_eq_true] at h2
  refine ⟨?_, ?_⟩
  · intro hs
    subst hs
    simpa using h2.1
  · intro c hc
    exact List.all_eq_true.mp h2.2 c hc

theorem uriTokens?_cons_ne (c : Char) (rest : Str) (hc : c ≠ '%') :
    uriTokens? (c :: rest) =
      match uriTokens? rest with
      | some ts => some (UriTok.lit c :: ts)
      | none => none := by
  cases rest with
  | nil => simp [uriTokens?, hc]
  | cons d rest1 =>
    cases rest1 with
    | nil => simp [uriTokens?, hc]
    | cons e rest2 => simp [uriTokens?, hc]

theorem uriTokens?_noPercent (s : Str) (h : ∀ c ∈ s, c ≠ '%') :
    uriTokens? s = some (s.map UriTok.lit) := by
  induction s with
  | nil => rfl
  | cons c rest ih =>
    rw [uriTokens?_cons_ne c rest (h c (List.mem_cons_self c rest)),
      ih (fun b hb => h b (List.mem_cons_of_mem c hb))]
    rfl

theorem decodeToks_lit_cons (c : Char) (rest : List UriTok) :
    decodeToks (UriTok.lit c :: rest) =
      match decodeToks rest with
      | some s => some (c :: s)
      | none => none := by
  cases rest with
  | nil => rfl
  | cons t1 r1 =>
    cases t1 with
    | lit d1 => rfl
    | byte b1 =>
      cases r1 with
      | nil => rfl
      | cons t2 r2 =>
        cases t2 with
        | lit d2 => rfl
        | byte b2 =>
          cases r2 with
          | nil => rfl
          | cons t3 r3 =>
            cases t3 with
            | lit d3 => rfl
            | byte b3 => rfl

theorem decodeToks_lits (s : Str) :
    decodeToks (s.map UriTok.lit) = some s := by
  induction s with
  | nil => rfl
  | cons c rest ih => rw [List.map_cons, decodeToks_lit_cons, ih]

theorem decodeURIComponent_noPercent (s : Str) (h : ∀ c ∈ s, c ≠ '%') :
    decodeURIComponent s = some s := by
  unfold decodeURIComponent
  rw [uriTokens?_noPercent s h]
  exact decodeToks_lits s

theorem decodeSafe_of_safeSeg {s : Str} (h : asciiSafeSegment s = true) :
    Migrate.decodeURIComponentSafe s = s := by
  unfold Migrate.decodeURIComponentSafe
  rw [decodeURIComponent_noPercent s
    (fun c hc => safeChar_ne_percent ((safeSeg_parts h).2 c hc))]

theorem char_toNat_lt (c : Char) : c.toNat < 1114112 := by
  have h := c.valid
  rcases h with h | h
  · have : c.val.toNat < 55296 := h
    simp only [Char.toNat]
    omega
  · have : c.val.toNat < 1114112 := h.2
    simp only [Char.toNat]
    omega

theorem utf8Bytes_lt (c : Char) : ∀ b ∈ utf8Bytes c, b < 256 := by
  intro b hb
  have hc := char_toNat_lt c
  unfold utf8Bytes at hb
  split_ifs at hb with h1 h2 h3
  · simp at hb
    omega
  · simp at hb
    rcases hb with hb | hb <;> omega
  · simp at hb
    rcases hb with hb | hb | hb <;> omega
  · simp at hb
    rcases hb with hb | hb | hb | hb <;> omega

theorem hexChar_safe {n : Nat} (h : n < 16) : asciiSafeChar (hexChar n) = true := by
  interval_cases n <;> decide

theorem byteHex_safe {b : Nat} (h : b < 256) :
    ∀ c ∈ byteHex b, asciiSafeChar c = true := by
  intro c hc
  unfold byteHex at hc
  simp at hc
  rcases hc with hc | hc <;> subst hc
  · exact hexChar_safe (by omega)
  · exact hexChar_safe (Nat.mod_lt b (by omega))

theorem utf8Hex_safe (s : Str) : ∀ c ∈ utf8Hex s, asciiSafeChar c = true := by
  intro c hc
  unfold utf8Hex at hc
  rw [List.mem_flatMap] at hc
  obtain ⟨b, hb, hcb⟩ := hc
  rw [List.mem_flatMap] at hb
  obtain ⟨ch, hch, hbch⟩ := hb
  exact byteHex_safe (utf8Bytes_lt ch b hbch) c hcb

theorem toAscii_safe (s : Str) :
    asciiSafeSegment (Migrate.toAsciiSafeStorageSegment s) = true := by
  unfold Migrate.toAsciiSafeStorageSegment
  split
  · assumption
  · unfold asciiSafeSegment
    rw [Bool.and_eq_true]
    refine ⟨by simp, ?_⟩
    rw [List.all_eq_true]
    intro c hc
    rcases List.mem_cons.mp hc with hc | hc
    · subst hc; decide
    · exact utf8Hex_safe s c hc

theorem toAscii_id_of_safe {s : Str} (h : asciiSafeSegment s = true) :
    Migrate.toAsciiSafeStorageSegment s = s := by
  unfold Migrate.toAsciiSafeStorageSegment
  rw [if_pos h]

theorem toUploadKey_nil : Migrate.toUploadKey [] = [] := rfl

theorem toUploadKey_fix_of_safe (segs : List Str)
    (h : ∀ s ∈ segs, asciiSafeSegment s = true) :
    Migrate.toUploadKey (joinSlash segs) = joinSlash segs := by
  cases segs with
  | nil => exact toUploadKey_nil
  | cons s0 ss =>
    unfold Migrate.toUploadKey
    rw [splitOnSlash_joinSlash (s0 :: ss) (by simp)
      (fun s hs c hc => safeChar_ne_slash ((safeSeg_parts (h s hs)).2 c hc))]
    rw [List.filter_eq_self.mpr (by
      intro s hs
      have := (safeSeg_parts (h s hs)).1
      simpa [List.isEmpty_iff] using this)]
    rw [map_eq_self_of _ _ (by
      intro s hs
      rw [decodeSafe_of_safeSeg (h s hs), toAscii_id_of_safe (h s hs)])]

theorem toUploadKey_segments_safe (p : Str) :
    ∃ segs : List Str, Migrate.toUploadKey p = joinSlash segs ∧
      ∀ s ∈ segs, asciiSafeSegment s = true := by
  refine ⟨_, rfl, ?_⟩
  intro s hs
  rw [List.mem_map] at hs
  obtain ⟨t, _, ht⟩ := hs
  rw [← ht]
  exact toAscii_safe _

/-- C3: canonicalization is idempotent: a key whose slash-segments all
match the ASCII-safe pattern is a fixed point of toUploadKey, and
toUploadKey composed with itself equals toUploadKey on every input. -/
theorem toUploadKey_idempotent :
    (∀ k : Str, (∀ s ∈ splitOnSlash k, asciiSafeSegment s = true) →
      Migrate.toUploadKey k = k) ∧
    (∀ p : Str, Migrate.toUploadKey (Migrate.toUploadKey p) = Migrate.toUploadKey p) := by
  constructor
  · intro k h
    conv_lhs => rw [← joinSlash_splitOnSlash k]
    rw [toUploadKey_fix_of_safe (splitOnSlash k) h, joinSlash_splitOnSlash]
  · intro p
    obtain ⟨segs, hp, hsafe⟩ := toUploadKey_segments_safe p
    rw [hp, toUploadKey_fix_of_safe segs hsafe]

/-- C3 witness: the safe key `images/spots/a.jpg` is a fixed point. -/
theorem toUploadKey_idempotent_witness :
    Migrate.toUploadKey (strL "images/spots/a.jpg") = strL "images/spots/a.jpg" :=
  toUploadKey_idempotent.1 (strL "images/spots/a.jpg") (by decide)

/-- C4: toUploadKey splits on `/`, drops empty segments, best-effort
percent-decodes each segment without throwing (raw segment used on
failure), keeps ASCII-safe decoded segments and hex-encodes the others
whole; the segment of `images/spots/かっこうだんご.jpg` is hex-encoded
as one unit including the `.jpg` suffix. -/
theorem toUploadKey_functional :
    (∀ p : Str, Migrate.toUploadKey p = toObjectKeySpec p) ∧
    Migrate.toUploadKey (strL "images/spots/かっこうだんご.jpg") =
      strL "images/spots/ue3818be381a3e38193e38186e381a0e38293e381942e6a7067" := by
  constructor
  · intro p
    unfold Migrate.toUploadKey toObjectKeySpec
    congr 1
    apply List.map_congr_left
    intro s _
    unfold Migrate.toAsciiSafeStorageSegment Migrate.decodeURIComponentSafe segSpec
    cases h : decodeURIComponent s <;> simp
  · decide

/-- C2 counterexample: a public-object URL whose key suffix holds a
malformed percent-escape makes normalizeStoragePath throw (the unguarded
decodeURIComponent raises URIError) instead of returning a decoded
suffix as the claim states for every suffix. -/
theorem normalizeStoragePath_counterexample :
    Verify.normalizeStoragePath
      (some (strL "https://x.supabase.co/storage/v1/object/public/iwate150data/images/%")) =
      Except.error () := by
  rfl

/-- C2 amended: normalizeStoragePath agrees with the spec's case analysis
amended with the throwing decode: a marker URL returns the percent-decoded
suffix when the suffix decodes and throws otherwise; `/images/`-`/models/`
paths lose the leading slash, bare asset paths pass through, all other
shapes (null, empty, markerless URLs, anything else) are rejected with
`none`; in particular the spec's sample URL normalizes to
`images/spots/a.jpg` and a decodable suffix after the marker is returned
percent-decoded. -/
theorem normalizeStoragePath_spec :
    (∀ raw : Option Str, Verify.normalizeStoragePath raw = normalizeSpec raw) ∧
    (∀ S : Str,
      Verify.normalizeStoragePath
        (some (strL "https://x.supabase.co" ++ Verify.publicMarker ++ S)) =
        match decodeURIComponent S with
        | some d => Except.ok (some d)
        | none => Except.error ()) ∧
    Verify.normalizeStoragePath
      (some (strL "https://x.supabase.co/storage/v1/object/public/iwate150data/images/spots/a.jpg")) =
      Except.ok (some (strL "images/spots/a.jpg")) := by
  refine ⟨?_, ?_, by rfl⟩
  · intro raw
    cases raw with
    | none => rfl
    | some s =>
      cases s with
      | nil => rfl
      | cons c t => rfl
  · intro S
    rfl

namespace Migrate

theorem findByKey_cons (e : AssetItem) (rest : List AssetItem) (k : Str) :
    findByKey (e :: rest) k =
      if e.storagePath = k then some e else findByKey rest k := by
  by_cases h : e.storagePath = k
  · rw [findByKey, List.find?_cons_of_pos _ (by simp [h]), if_pos h]
  · rw [findByKey, List.find?_cons_of_neg _ (by simp [h]), if_neg h]
    rfl

theorem stepAt_none (item : AssetItem) : stepAt none item = some item := rfl

theorem stepAt_some (e item : AssetItem) :
    stepAt (some e) item =
      if e.source = Source.public ∧ item.source = Source.legacy then some item
      else some e := rfl

theorem findByKey_addItem (m : List AssetItem) (item : AssetItem) (k : Str) :
    findByKey (addItem m item) k =
      if item.storagePath = k then stepAt (findByKey m k) item
      else findByKey m k := by
  induction m with
  | nil =>
    by_cases hk : item.storagePath = k
    · rw [addItem, findByKey_cons, if_pos hk, if_pos hk]
      rfl
    · rw [addItem, findByKey_cons, if_neg hk, if_neg hk]
  | cons e rest ih =>
    rw [addItem]
    by_cases h1 : e.storagePath = item.storagePath
    · rw [if_pos h1]
      by_cases h2 : e.source = Source.public ∧ item.source = Source.legacy
      · rw [if_pos h2, findByKey_cons]
        by_cases hk : item.storagePath = k
        · have hek : e.storagePath = k := h1.trans hk
          simp [hk, findByKey_cons, hek, stepAt_some, h2]
        · have hek : ¬ e.storagePath = k := fun h => hk (h1.symm.trans h)
          simp [hk, findByKey_cons, hek]
      · rw [if_neg h2]
        by_cases hk : item.storagePath = k
        · have hek : e.storagePath = k := h1.trans hk
          simp [hk, findByKey_cons, hek, stepAt_some, h2]
        · simp [hk]
    · rw [if_neg h1, findByKey_cons, ih, findByKey_cons]
      by_cases he : e.storagePath = k
      · have hik : ¬ item.storagePath = k := fun h => h1 (he.trans h.symm)
        simp [hik, he]
      · simp [he]

theorem keysOf_cons (e : AssetItem) (rest : List AssetItem) :
    keysOf (e :: rest) = e.storagePath :: keysOf rest := rfl

theorem keysOf_addItem_found (m : List AssetItem) (item : AssetItem)
    (h : ∃ e ∈ m, e.storagePath = item.storagePath) :
    keysOf (addItem m item) = keysOf m := by
  induction m with
  | nil => simp at h
  | cons e rest ih =>
    rw [addItem]
    by_cases h1 : e.storagePath = item.storagePath
    · rw [if_pos h1]
      by_cases h2 : e.source = Source.public ∧ item.source = Source.legacy
      · rw [if_pos h2, keysOf_cons, keysOf_cons, h1]
      · rw [if_neg h2]
    · rw [if_neg h1, keysOf_cons, keysOf_cons, ih]
      obtain ⟨x, hx, hxs⟩ := h
      rcases List.mem_cons.mp hx with rfl | hx2
      · exact absurd hxs h1
      · exact ⟨x, hx2, hxs⟩

theorem keysOf_addItem_new (m : List AssetItem) (item : AssetItem)
    (h : ∀ e ∈ m, ¬ e.storagePath = item.storagePath) :
    keysOf (addItem m item) = keysOf m ++ [item.storagePath] := by
  induction m with
  | nil => rfl
  | cons e rest ih =>
    rw [addItem, if_neg (h e (List.mem_cons_self e rest)), keysOf_cons, keysOf_cons,
      ih (fun x hx => h x (List.mem_cons_of_mem e hx)), List.cons_append]

theorem nodup_keys_addItem (m : List AssetItem) (item : AssetItem)
    (h : (keysOf m).Nodup) : (keysOf (addItem m item)).Nodup := by
  by_cases hex : ∃ e ∈ m, e.storagePath = item.storagePath
  · rw [keysOf_addItem_found m item hex]
    exact h
  · push_neg at hex
    rw [keysOf_addItem_new m item hex, List.nodup_append]
    refine ⟨h, List.nodup_singleton _, ?_⟩
    intro x hx hx2
    have hx2' : x = item.storagePath := by simpa using hx2
    subst hx2'
    obtain ⟨e, he, hesp⟩ := List.mem_map.mp hx
    exact hex e he hesp

theorem nodup_keys_foldl (items : List AssetItem) :
    ∀ m : List AssetItem, (keysOf m).Nodup →
      (keysOf (List.foldl addItem m items)).Nodup := by
  induction items with
  | nil => intro m h; exact h
  | cons i rest ih => intro m h; exact ih _ (nodup_keys_addItem m i h)

theorem findByKey_foldl (items : List AssetItem) :
    ∀ (m : List AssetItem) (k : Str),
      findByKey (List.foldl addItem m items) k =
        List.foldl stepAt (findByKey m k)
          (items.filter (fun i => decide (i.storagePath = k))) := by
  induction items with
  | nil => intro m k; rfl
  | cons i rest ih =>
    intro m k
    rw [List.foldl_cons, ih, List.filter_cons]
    by_cases hik : i.storagePath = k
    · rw [if_pos (by simp [hik]), findByKey_addItem, if_pos hik, List.foldl_cons]
    · rw [if_neg (by simp [hik]), findByKey_addItem, if_neg hik]

theorem foldl_stepAt_legacy (e : AssetItem) (h : e.source = Source.legacy) :
    ∀ seq : List AssetItem, List.foldl stepAt (some e) seq = some e := by
  intro seq
  induction seq with
  | nil => rfl
  | cons i rest ih =>
    rw [List.foldl_cons]
    have hstep : stepAt (some e) i = some e := by
      rw [stepAt_some, if_neg]
      intro hcon
      rw [h] at hcon
      exact absurd hcon.1 (by decide)
    rw [hstep, ih]

theorem foldl_stepAt_public (e : AssetItem) (h : e.source = Source.public) :
    ∀ seq : List AssetItem,
      List.foldl stepAt (some e) seq =
        match seq.find? (fun i => decide (i.source = Source.legacy)) with
        | some l => some l
        | none => some e := by
  intro seq
  induction seq with
  | nil => rfl
  | cons i rest ih =>
    rw [List.foldl_cons]
    by_cases hi : i.source = Source.legacy
    · have hstep : stepAt (some e) i = some i := by
        rw [stepAt_some, if_pos ⟨h, hi⟩]
      rw [hstep, foldl_stepAt_legacy i hi rest,
        List.find?_cons_of_pos _ (by simp [hi])]
    · have hstep : stepAt (some e) i = some e := by
        rw [stepAt_some, if_neg]
        intro hcon
        exact hi hcon.2
      rw [hstep, ih, List.find?_cons_of_neg _ (by simp [hi])]

theorem foldl_stepAt_none_legacy (seq : List AssetItem)
    (h : ∃ i ∈ seq, i.source = Source.legacy) :
    ∃ l, List.foldl stepAt none seq = some l ∧ l.source = Source.legacy := by
  cases seq with
  | nil => simp at h
  | cons i rest =>
    rw [List.foldl_cons]
    have hstep : stepAt none i = some i := rfl
    rw [hstep]
    by_cases hi : i.source = Source.legacy
    · exact ⟨i, foldl_stepAt_legacy i hi rest, hi⟩
    · have hpub : i.source = Source.public := by
        cases hsrc : i.source
        · exact absurd hsrc hi
        · rfl
      rw [foldl_stepAt_public i hpub rest]
      have hrest : ∃ x ∈ rest, decide (x.source = Source.legacy) = true := by
        obtain ⟨x, hx, hxs⟩ := h
        rcases List.mem_cons.mp hx with rfl | hx2
        · exact absurd hxs hi
        · exact ⟨x, hx2, by simp [hxs]⟩
      obtain ⟨l, hl⟩ := Option.isSome_iff_exists.mp (List.find?_isSome.mpr hrest)
      rw [hl]
      exact ⟨l, rfl, by simpa using List.find?_some hl⟩

theorem mem_of_findByKey {m : List AssetItem} {k : Str} {e : AssetItem}
    (h : findByKey m k = some e) : e ∈ m ∧ e.storagePath = k :=
  ⟨List.mem_of_find?_eq_some h, by simpa using List.find?_some h⟩

theorem findByKey_of_mem {m : List AssetItem} {k : Str} {e : AssetItem}
    (hnd : (keysOf m).Nodup) (he : e ∈ m) (hk : e.storagePath = k) :
    findByKey m k = some e := by
  induction m with
  | nil => simp at he
  | cons a rest ih =>
    rw [keysOf_cons, List.nodup_cons] at hnd
    rcases List.mem_cons.mp he with rfl | he2
    · rw [findByKey_cons, if_pos hk]
    · have ha : ¬ a.storagePath = k := by
        intro hak
        exact hnd.1 (hak ▸ List.mem_map.mpr ⟨e, he2, hk⟩)
      rw [findByKey_cons, if_neg ha]
      exact ih hnd.2 he2

theorem addImage_foldl (t : List AssetItem) (lp sp : Str) (b : Nat) (src : Source) :
    addImageWithThumbAlias t lp sp b src = List.foldl addItem t (imageItems lp sp b src) := by
  unfold addImageWithThumbAlias imageItems
  cases h : toThumbStoragePath sp <;> rfl

theorem foldl_image_root (g : DiscoveredFile → Str) (src : Source)
    (l : List DiscoveredFile) :
    ∀ m : List AssetItem,
      l.foldl (fun t f =>
        if isImage f.localPath then
          addImageWithThumbAlias t f.localPath (g f) f.bytes src
        else t) m
      = List.foldl addItem m (l.flatMap (fun f =>
          if isImage f.localPath then imageItems f.localPath (g f) f.bytes src
          else [])) := by
  induction l with
  | nil => intro m; rfl
  | cons f rest ih =>
    intro m
    rw [List.foldl_cons, List.flatMap_cons, List.foldl_append, ih]
    by_cases hf : isImage f.localPath
    · rw [if_pos hf, if_pos hf, addImage_foldl]
    · rw [if_neg hf, if_neg hf]
      rfl

theorem foldl_model_root (src : Source) (l : List DiscoveredFile) :
    ∀ m : List AssetItem,
      l.foldl (fun t f => if isModel f.localPath then addItem t (modelItem f src) else t) m
      = List.foldl addItem m (l.flatMap (fun f =>
          if isModel f.localPath then [modelItem f src] else [])) := by
  induction l with
  | nil => intro m; rfl
  | cons f rest ih =>
    intro m
    rw [List.foldl_cons, List.flatMap_cons, List.foldl_append, ih]
    by_cases hf : isModel f.localPath
    · rw [if_pos hf, if_pos hf]
      rfl
    · rw [if_neg hf, if_neg hf]
      rfl

theorem collectAssets_eq (inp : ScanInput) :
    collectAssets inp = sortByStoragePath (List.foldl addItem [] (insertionItems inp)) := by
  simp only [collectAssets, insertionItems]
  rw [foldl_image_root, foldl_model_root, foldl_image_root, foldl_model_root,
    List.foldl_append, List.foldl_append, List.foldl_append]

/-- C5: manifest deduplication: in every manifest produced by
collectAssets the storagePath keys are unique, and whenever a
legacy-source and a public-source item were inserted under the same
storagePath, the surviving manifest entry for that key has source
legacy. -/
theorem manifest_dedup (inp : ScanInput) (k : Str) :
    (keysOf (collectAssets inp)).Nodup ∧
    ((∃ i ∈ insertionItems inp, i.storagePath = k ∧ i.source = Source.legacy) →
     (∃ i ∈ insertionItems inp, i.storagePath = k ∧ i.source = Source.public) →
     ∀ e ∈ collectAssets inp, e.storagePath = k → e.source = Source.legacy) := by
  have hperm : (collectAssets inp).Perm (List.foldl addItem [] (insertionItems inp)) := by
    rw [collectAssets_eq]
    exact List.perm_insertionSort _ _
  have hnd : (keysOf (List.foldl addItem [] (insertionItems inp))).Nodup :=
    nodup_keys_foldl (insertionItems inp) [] List.nodup_nil
  constructor
  · show (keysOf (collectAssets inp)).Nodup
    unfold keysOf at hnd ⊢
    exact ((hperm.map (fun e => e.storagePath)).nodup_iff).mpr hnd
  · intro hleg _ e he hek
    have he2 : e ∈ List.foldl addItem [] (insertionItems inp) := hperm.mem_iff.mp he
    have hfind : findByKey (List.foldl addItem [] (insertionItems inp)) k = some e :=
      findByKey_of_mem hnd he2 hek
    rw [findByKey_foldl (insertionItems inp) [] k] at hfind
    have hfl : ∃ i ∈ (insertionItems inp).filter (fun i => decide (i.storagePath = k)),
        i.source = Source.legacy := by
      obtain ⟨i, hi, hik, his⟩ := hleg
      exact ⟨i, List.mem_filter.mpr ⟨hi, by simp [hik]⟩, his⟩
    obtain ⟨l, hl, hls⟩ := foldl_stepAt_none_legacy _ hfl
    have : findByKey ([] : List AssetItem) k = none := rfl
    rw [this, hl] at hfind
    cases hfind
    exact hls

/-- C5 witness: one legacy and one public file mapping to the same
storagePath leave a single entry with source legacy. -/
theorem manifest_dedup_witness :
    (∃ i ∈ insertionItems
        ⟨[⟨strL "/l/a.jpg", strL "city_images/a.jpg", 1⟩], [],
         [⟨strL "/p/a.jpg", strL "cities/a.jpg", 2⟩], []⟩,
      i.storagePath = strL "images/cities/a.jpg" ∧ i.source = Source.legacy) ∧
    (∀ e ∈ collectAssets
        ⟨[⟨strL "/l/a.jpg", strL "city_images/a.jpg", 1⟩], [],
         [⟨strL "/p/a.jpg", strL "cities/a.jpg", 2⟩], []⟩,
      e.storagePath = strL "images/cities/a.jpg" → e.source = Source.legacy) :=
  ⟨by decide,
   (manifest_dedup
      ⟨[⟨strL "/l/a.jpg", strL "city_images/a.jpg", 1⟩], [],
       [⟨strL "/p/a.jpg", strL "cities/a.jpg", 2⟩], []⟩
      (strL "images/cities/a.jpg")).2 (by decide) (by decide)⟩

end Migrate

theorem startsWith_self_append (l t : Str) : startsWith l (l ++ t) = true := by
  induction l with
  | nil => rfl
  | cons x xs ih => simp [startsWith, ih]

theorem startsWith_append_right (a b c : Str) :
    startsWith (a ++ b) (a ++ c) = startsWith b c := by
  induction a with
  | nil => rfl
  | cons x xs ih => simp [startsWith, ih]

theorem startsWith_drop : ∀ l s : Str, startsWith l s = true → s = l ++ s.drop l.length := by
  intro l
  induction l with
  | nil => intro s _; rfl
  | cons x xs ih =>
    intro s h
    cases s with
    | nil => exact absurd h (by simp [startsWith])
    | cons y ys =>
      rw [startsWith, Bool.and_eq_true] at h
      have hxy : x = y := by simpa using h.1
      subst hxy
      rw [List.cons_append, List.length_cons, List.drop_succ_cons, ← ih ys h.2]

theorem startsWith_longer : ∀ l1 l2 s : Str,
    startsWith (l1 ++ l2) s = true → startsWith l1 s = true := by
  intro l1
  induction l1 with
  | nil => intro l2 s _; rfl
  | cons x xs ih =>
    intro l2 s h
    cases s with
    | nil => exact absurd h (by simp [startsWith])
    | cons y ys =>
      rw [List.cons_append, startsWith, Bool.and_eq_true] at h
      rw [startsWith, Bool.and_eq_true]
      exact ⟨h.1, ih l2 ys h.2⟩

theorem ne_of_startsWith {l s t : Str}
    (hs : startsWith l s = true) (ht : startsWith l t = false) : s ≠ t := by
  intro h
  subst h
  rw [hs] at ht
  simp at ht

namespace Migrate

theorem toThumb_eq_some {p : Str}
    (h1 : startsWith (strL "images/") p = true)
    (h2 : startsWith (strL "images/thumb/") p = false) :
    toThumbStoragePath p = some (strL "images/thumb/" ++ p.drop 7) := by
  unfold toThumbStoragePath
  rw [h1, h2]
  rfl

theorem toThumb_none_of_thumb (p : Str)
    (h : startsWith (strL "images/thumb/") p = true) :
    toThumbStoragePath p = none := by
  have h1 : startsWith (strL "images/") p = true := by
    apply startsWith_longer (strL "images/") (strL "thumb/")
    exact h
  unfold toThumbStoragePath
  rw [h1, h]
  rfl

theorem cat_shape (catTail b : Str)
    (hf : startsWith (strL "thumb/") (catTail ++ b) = false) :
    startsWith (strL "images/") (strL "images/" ++ (catTail ++ b)) = true ∧
    startsWith (strL "images/thumb/") (strL "images/" ++ (catTail ++ b)) = false := by
  constructor
  · exact startsWith_self_append _ _
  · rw [show strL "images/thumb/" = strL "images/" ++ strL "thumb/" from rfl,
      startsWith_append_right]
    exact hf

theorem mapLegacy_shape (rel : Str) :
    startsWith (strL "images/") (mapLegacyImageToStoragePath rel) = true ∧
    startsWith (strL "images/thumb/") (mapLegacyImageToStoragePath rel) = false := by
  unfold mapLegacyImageToStoragePath
  split_ifs
  · exact cat_shape (strL "cities/") (basename rel) rfl
  · exact cat_shape (strL "genres/") (basename rel) rfl
  · exact cat_shape (strL "spots/") (basename rel) rfl
  · exact ⟨rfl, rfl⟩
  · exact cat_shape (strL "other/") (basename rel) rfl

theorem thumbAliasOf_fullImageItem (lp sp : Str) (b : Nat) (src : Source) :
    thumbAliasOf (fullImageItem lp sp b src) =
      thumbImageItem lp (strL "images/thumb/" ++ sp.drop 7) b src := rfl

theorem fullImageItem_storagePath (lp sp : Str) (b : Nat) (src : Source) :
    (fullImageItem lp sp b src).storagePath = sp := rfl

theorem thumbImageItem_storagePath (lp tp : Str) (b : Nat) (src : Source) :
    (thumbImageItem lp tp b src).storagePath = tp := rfl

theorem imageItems_filter_pair (lp sp : Str) (b : Nat) (src : Source) (k : Str)
    (hsp1 : startsWith (strL "images/") sp = true)
    (hsp2 : startsWith (strL "images/thumb/") sp = false)
    (hk1 : startsWith (strL "images/") k = true)
    (hk2 : startsWith (strL "images/thumb/") k = false) :
    (imageItems lp sp b src).filter
        (fun i => decide (i.storagePath = strL "images/thumb/" ++ k.drop 7)) =
      ((imageItems lp sp b src).filter
        (fun i => decide (i.storagePath = k))).map thumbAliasOf := by
  have hTk : startsWith (strL "images/thumb/") (strL "images/thumb/" ++ k.drop 7) = true :=
    startsWith_self_append _ _
  have hTsp : startsWith (strL "images/thumb/") (strL "images/thumb/" ++ sp.drop 7) = true :=
    startsWith_self_append _ _
  have hspTk : ¬ sp = strL "images/thumb/" ++ k.drop 7 :=
    ne_of_startsWith hTk hsp2 |>.symm
  have hTspk : ¬ strL "images/thumb/" ++ sp.drop 7 = k := ne_of_startsWith hTsp hk2
  have hTinj : (strL "images/thumb/" ++ sp.drop 7 = strL "images/thumb/" ++ k.drop 7) ↔ sp = k := by
    constructor
    · intro h
      have h2 := List.append_cancel_left h
      have hsp' := startsWith_drop (strL "images/") sp hsp1
      have hk' := startsWith_drop (strL "images/") k hk1
      rw [hsp', hk']
      exact congrArg (fun t => strL "images/" ++ t) h2
    · intro h
      rw [h]
  simp only [imageItems, toThumb_eq_some hsp1 hsp2]
  by_cases hspk : sp = k
  · subst hspk
    simp [List.filter_cons, fullImageItem_storagePath, thumbImageItem_storagePath,
      hspTk, hTspk, thumbAliasOf_fullImageItem]
  · simp [List.filter_cons, fullImageItem_storagePath, thumbImageItem_storagePath,
      hspTk, hTspk, hspk, hTinj]

theorem filterMap_parallel_append {α : Type} (p q : α → Bool) (g : α → α) (A B : List α)
    (hA : A.filter p = (A.filter q).map g) (hB : B.filter p = (B.filter q).map g) :
    (A ++ B).filter p = ((A ++ B).filter q).map g := by
  rw [List.filter_append, List.filter_append, List.map_append, hA, hB]

theorem filterMap_parallel_flatMap {α β : Type} (p q : β → Bool) (g : β → β)
    (l : List α) (gen : α → List β)
    (h : ∀ f ∈ l, (gen f).filter p = ((gen f).filter q).map g) :
    (l.flatMap gen).filter p = ((l.flatMap gen).filter q).map g := by
  induction l with
  | nil => rfl
  | cons a t ih =>
    rw [List.flatMap_cons, List.filter_append, List.filter_append, List.map_append,
      h a (List.mem_cons_self a t), ih (fun x hx => h x (List.mem_cons_of_mem a hx))]

theorem models_not_images (rel k : Str)
    (hk1 : startsWith (strL "images/") k = true) :
    ¬ strL "models/" ++ rel = k := by
  have hm : startsWith (strL "images/") (strL "models/" ++ rel) = false := rfl
  exact ne_of_startsWith hk1 hm |>.symm

theorem insertionItems_filter_thumb (inp : ScanInput) (k : Str)
    (hk1 : startsWith (strL "images/") k = true)
    (hk2 : startsWith (strL "images/thumb/") k = false)
    (H : ∀ f ∈ inp.publicImages, startsWith (strL "thumb/") f.rel = false) :
    (insertionItems inp).filter
        (fun i => decide (i.storagePath = strL "images/thumb/" ++ k.drop 7)) =
      ((insertionItems inp).filter
        (fun i => decide (i.storagePath = k))).map thumbAliasOf := by
  have hTk1 : startsWith (strL "images/") (strL "images/thumb/" ++ k.drop 7) = true := by
    apply startsWith_longer (strL "images/") (strL "thumb/")
    exact startsWith_self_append (strL "images/thumb/") (k.drop 7)
  unfold insertionItems
  apply filterMap_parallel_append
  · apply filterMap_parallel_append
    · apply filterMap_parallel_append
      · -- legacy images
        apply filterMap_parallel_flatMap
        intro f _
        by_cases hf : isImage f.localPath
        · rw [if_pos hf]
          exact imageItems_filter_pair f.localPath (mapLegacyImageToStoragePath f.rel) f.bytes
            Source.legacy k (mapLegacy_shape f.rel).1 (mapLegacy_shape f.rel).2 hk1 hk2
        · rw [if_neg hf]
          rfl
      · -- legacy models
        apply filterMap_parallel_flatMap
        intro f _
        by_cases hf : isModel f.localPath
        · simp [hf, List.filter_cons, models_not_images f.rel _ hTk1,
            models_not_images f.rel _ hk1, modelItem]
        · simp [hf]
    · -- public images
      apply filterMap_parallel_flatMap
      intro f hfmem
      by_cases hf : isImage f.localPath
      · rw [if_pos hf]
        have hshape := cat_shape [] f.rel (by simpa using H f hfmem)
        simp only [List.nil_append] at hshape
        exact imageItems_filter_pair f.localPath (strL "images/" ++ f.rel) f.bytes
          Source.public k hshape.1 hshape.2 hk1 hk2
      · rw [if_neg hf]
        rfl
  · -- public models
    apply filterMap_parallel_flatMap
    intro f _
    by_cases hf : isModel f.localPath
    · simp [hf, List.filter_cons, models_not_images f.rel _ hTk1,
        models_not_images f.rel _ hk1, modelItem]
    · simp [hf]

theorem foldl_stepAt_map (seq : List AssetItem) :
    ∀ cur : Option AssetItem,
      List.foldl stepAt (Option.map thumbAliasOf cur) (seq.map thumbAliasOf) =
        Option.map thumbAliasOf (List.foldl stepAt cur seq) := by
  induction seq with
  | nil => intro cur; rfl
  | cons i rest ih =>
    intro cur
    rw [List.map_cons, List.foldl_cons, List.foldl_cons]
    have hstep : stepAt (Option.map thumbAliasOf cur) (thumbAliasOf i) =
        Option.map thumbAliasOf (stepAt cur i) := by
      cases cur with
      | none => rfl
      | some e =>
        show stepAt (some (thumbAliasOf e)) (thumbAliasOf i) =
          Option.map thumbAliasOf (stepAt (some e) i)
        rw [stepAt_some, stepAt_some]
        have hsrc : (thumbAliasOf e).source = e.source := rfl
        have hsrc2 : (thumbAliasOf i).source = i.source := rfl
        rw [hsrc, hsrc2]
        by_cases hcond : e.source = Source.public ∧ i.source = Source.legacy
        · rw [if_pos hcond, if_pos hcond]
          rfl
        · rw [if_neg hcond, if_neg hcond]
          rfl
    rw [hstep, ih]

/-- C6 counterexample: a physical file under `public/images/thumb/` that
differs from the matching full image makes the claimed sibling invariant
fail: the full entry's thumb sibling exists but has a different
localPath and byteSize. -/
theorem manifest_thumbnail_counterexample :
    ∃ e ∈ collectAssets
      ⟨[], [],
       [⟨strL "/p/thumb/cities/a.jpg", strL "thumb/cities/a.jpg", 3⟩,
        ⟨strL "/p/cities/a.jpg", strL "cities/a.jpg", 2⟩], []⟩,
      startsWith (strL "images/") e.storagePath = true ∧
      startsWith (strL "images/thumb/") e.storagePath = false ∧
      ∀ e2 ∈ collectAssets
        ⟨[], [],
         [⟨strL "/p/thumb/cities/a.jpg", strL "thumb/cities/a.jpg", 3⟩,
          ⟨strL "/p/cities/a.jpg", strL "cities/a.jpg", 2⟩], []⟩,
        e2.storagePath = strL "images/thumb/" ++ e.storagePath.drop 7 →
        ¬(e2.localPath = e.localPath ∧ e2.bytes = e.bytes) := by
  decide

/-- C6 amended: provided the public images tree holds no physical file
under `thumb/`, every manifest entry whose storagePath is under
`images/` and not under `images/thumb/` has a sibling entry at
`images/thumb/<rest>` with identical localPath and byteSize; and no
thumbnail path is synthesized for a storagePath already under
`images/thumb/`. -/
theorem manifest_thumbnail_alias (inp : ScanInput)
    (H : ∀ f ∈ inp.publicImages, startsWith (strL "thumb/") f.rel = false) :
    (∀ e ∈ collectAssets inp,
      startsWith (strL "images/") e.storagePath = true →
      startsWith (strL "images/thumb/") e.storagePath = false →
      ∃ e2 ∈ collectAssets inp,
        e2.storagePath = strL "images/thumb/" ++ e.storagePath.drop 7 ∧
        e2.localPath = e.localPath ∧ e2.bytes = e.bytes) ∧
    (∀ p : Str, startsWith (strL "images/thumb/") p = true →
      toThumbStoragePath p = none) := by
  constructor
  · intro e he h1 h2
    have hperm : (collectAssets inp).Perm (List.foldl addItem [] (insertionItems inp)) := by
      rw [collectAssets_eq]
      exact List.perm_insertionSort _ _
    have hnd : (keysOf (List.foldl addItem [] (insertionItems inp))).Nodup :=
      nodup_keys_foldl (insertionItems inp) [] List.nodup_nil
    have he2 : e ∈ List.foldl addItem [] (insertionItems inp) := hperm.mem_iff.mp he
    have hfindk : findByKey (List.foldl addItem [] (insertionItems inp)) e.storagePath = some e :=
      findByKey_of_mem hnd he2 rfl
    rw [findByKey_foldl (insertionItems inp) [] e.storagePath] at hfindk
    have hfilter := insertionItems_filter_thumb inp e.storagePath h1 h2 H
    have hmap := foldl_stepAt_map
      ((insertionItems inp).filter (fun i => decide (i.storagePath = e.storagePath))) none
    have hfindT : findByKey (List.foldl addItem [] (insertionItems inp))
        (strL "images/thumb/" ++ e.storagePath.drop 7) = some (thumbAliasOf e) := by
      rw [findByKey_foldl (insertionItems inp) []
        (strL "images/thumb/" ++ e.storagePath.drop 7), hfilter]
      have hnone : findByKey ([] : List AssetItem)
          (strL "images/thumb/" ++ e.storagePath.drop 7) = Option.map thumbAliasOf none := rfl
      rw [hnone, hmap]
      have hbase : findByKey ([] : List AssetItem) e.storagePath = none := rfl
      rw [hbase] at hfindk
      rw [hfindk]
      rfl
    have hmem := mem_of_findByKey hfindT
    exact ⟨thumbAliasOf e, hperm.mem_iff.mpr hmem.1, rfl, rfl, rfl⟩
  · intro p hp
    exact toThumb_none_of_thumb p hp

/-- C6 witness: a single legacy city image produces its thumb alias
entry with identical localPath and byteSize. -/
theorem manifest_thumbnail_alias_witness :
    ∃ e2 ∈ collectAssets
      ⟨[⟨strL "/l/a.jpg", strL "city_images/a.jpg", 1⟩], [], [], []⟩,
      e2.storagePath = strL "images/thumb/cities/a.jpg" ∧
      e2.localPath = strL "/l/a.jpg" ∧ e2.bytes = 1 :=
  (manifest_thumbnail_alias
    ⟨[⟨strL "/l/a.jpg", strL "city_images/a.jpg", 1⟩], [], [], []⟩
    (by decide)).1
    (fullImageItem (strL "/l/a.jpg") (strL "images/cities/a.jpg") 1 Source.legacy)
    (by decide) (by decide) (by decide)

theorem runLoop_nil (ex st : List Str) : runLoop [] ex st = ⟨0, 0, [], [], st⟩ := rfl

theorem runLoop_cons_mem (item : AssetItem) (rest : List AssetItem) (ex st : List Str)
    (h : item.uploadPath ∈ ex) :
    runLoop (item :: rest) ex st =
      ⟨(runLoop rest ex st).uploaded, (runLoop rest ex st).skipped + 1,
       false :: (runLoop rest ex st).actions, (runLoop rest ex st).uploadedKeys,
       (runLoop rest ex st).store⟩ := by
  rw [runLoop, if_pos h]

theorem runLoop_cons_new (item : AssetItem) (rest : List AssetItem) (ex st : List Str)
    (h : item.uploadPath ∉ ex) :
    runLoop (item :: rest) ex st =
      ⟨(runLoop rest (item.uploadPath :: ex) (item.uploadPath :: st)).uploaded + 1,
       (runLoop rest (item.uploadPath :: ex) (item.uploadPath :: st)).skipped,
       true :: (runLoop rest (item.uploadPath :: ex) (item.uploadPath :: st)).actions,
       item.uploadPath ::
         (runLoop rest (item.uploadPath :: ex) (item.uploadPath :: st)).uploadedKeys,
       (runLoop rest (item.uploadPath :: ex) (item.uploadPath :: st)).store⟩ := by
  rw [runLoop, if_neg h]

theorem runLoop_store_mono (assets : List AssetItem) :
    ∀ (ex st : List Str) (x : Str), x ∈ st → x ∈ (runLoop assets ex st).store := by
  induction assets with
  | nil => intro ex st x hx; exact hx
  | cons item rest ih =>
    intro ex st x hx
    by_cases h : item.uploadPath ∈ ex
    · rw [runLoop_cons_mem item rest ex st h]
      exact ih ex st x hx
    · rw [runLoop_cons_new item rest ex st h]
      exact ih _ _ x (List.mem_cons_of_mem _ hx)

theorem runLoop_keys_in_store (assets : List AssetItem) :
    ∀ ex st : List Str, (∀ x ∈ ex, x ∈ st) →
      ∀ i ∈ assets, i.uploadPath ∈ (runLoop assets ex st).store := by
  induction assets with
  | nil => intro ex st _ i hi; simp at hi
  | cons item rest ih =>
    intro ex st hsub i hi
    by_cases h : item.uploadPath ∈ ex
    · rw [runLoop_cons_mem item rest ex st h]
      rcases List.mem_cons.mp hi with rfl | hi2
      · exact runLoop_store_mono rest ex st i.uploadPath (hsub i.uploadPath h)
      · exact ih ex st hsub i hi2
    · rw [runLoop_cons_new item rest ex st h]
      rcases List.mem_cons.mp hi with rfl | hi2
      · exact runLoop_store_mono rest _ _ i.uploadPath (List.mem_cons_self _ _)
      · refine ih _ _ ?_ i hi2
        intro x hx
        rcases List.mem_cons.mp hx with rfl | hx2
        · exact List.mem_cons_self _ _
        · exact List.mem_cons_of_mem _ (hsub x hx2)

theorem runLoop_skip_actions (assets : List AssetItem) :
    ∀ (ex st : List Str) (n : Nat) (i : AssetItem), assets[n]? = some i →
      i.uploadPath ∈ ex → (runLoop assets ex st).actions[n]? = some false := by
  induction assets with
  | nil => intro ex st n i hn _; simp at hn
  | cons item rest ih =>
    intro ex st n i hn hin
    cases n with
    | zero =>
      have hit : item = i := by simpa using hn
      subst hit
      rw [runLoop_cons_mem item rest ex st hin]
      simp
    | succ n2 =>
      have hn2 : rest[n2]? = some i := by simpa using hn
      by_cases h : item.uploadPath ∈ ex
      · rw [runLoop_cons_mem item rest ex st h]
        simpa using ih ex st n2 i hn2 hin
      · rw [runLoop_cons_new item rest ex st h]
        simpa using ih _ _ n2 i hn2 (List.mem_cons_of_mem _ hin)

theorem runLoop_uploadedKeys_fresh (assets : List AssetItem) :
    ∀ (ex st : List Str) (x : Str),
      x ∈ (runLoop assets ex st).uploadedKeys → x ∉ ex := by
  induction assets with
  | nil => intro ex st x hx; simp [runLoop_nil] at hx
  | cons item rest ih =>
    intro ex st x hx
    by_cases h : item.uploadPath ∈ ex
    · rw [runLoop_cons_mem item rest ex st h] at hx
      exact ih ex st x hx
    · rw [runLoop_cons_new item rest ex st h] at hx
      have hx2 : x = item.uploadPath ∨
          x ∈ (runLoop rest (item.uploadPath :: ex) (item.uploadPath :: st)).uploadedKeys := by
        simpa using hx
      rcases hx2 with rfl | hx3
      · exact h
      · intro hxex
        exact ih _ _ x hx3 (List.mem_cons_of_mem _ hxex)

theorem runLoop_all_skip (assets : List AssetItem) :
    ∀ ex st : List Str, (∀ i ∈ assets, i.uploadPath ∈ ex) →
      runLoop assets ex st =
        ⟨0, assets.length, List.replicate assets.length false, [], st⟩ := by
  induction assets with
  | nil => intro ex st _; rfl
  | cons item rest ih =>
    intro ex st hall
    rw [runLoop_cons_mem item rest ex st (hall item (List.mem_cons_self item rest)),
      ih ex st (fun i hi => hall i (List.mem_cons_of_mem item hi))]
    rfl

theorem runLoop_keys_covered (assets : List AssetItem) :
    ∀ (ex st : List Str) (i : AssetItem), i ∈ assets →
      i.uploadPath ∈ ex ∨ i.uploadPath ∈ (runLoop assets ex st).uploadedKeys := by
  induction assets with
  | nil => intro ex st i hi; simp at hi
  | cons item rest ih =>
    intro ex st i hi
    by_cases h : item.uploadPath ∈ ex
    · rw [runLoop_cons_mem item rest ex st h]
      rcases List.mem_cons.mp hi with rfl | hi2
      · exact Or.inl h
      · exact ih ex st i hi2
    · rw [runLoop_cons_new item rest ex st h]
      rcases List.mem_cons.mp hi with rfl | hi2
      · right
        exact List.mem_cons_self _ _
      · rcases ih (item.uploadPath :: ex) (item.uploadPath :: st) i hi2 with hin | hup
        · rcases List.mem_cons.mp hin with heq | hin2
          · right
            rw [heq]
            exact List.mem_cons_self _ _
          · exact Or.inl hin2
        · right
          exact List.mem_cons_of_mem _ hup

theorem runLoop_all_upload (assets : List AssetItem) :
    (assets.map (fun i => i.uploadPath)).Nodup →
    ∀ ex st : List Str, (∀ i ∈ assets, i.uploadPath ∉ ex) →
      ∀ (n : Nat) (i : AssetItem), assets[n]? = some i →
        (runLoop assets ex st).actions[n]? = some true := by
  induction assets with
  | nil => intro _ ex st _ n i hn; simp at hn
  | cons item rest ih =>
    intro hnd ex st hfresh n i hn
    rw [List.map_cons, List.nodup_cons] at hnd
    have hnotex : item.uploadPath ∉ ex := hfresh item (List.mem_cons_self item rest)
    rw [runLoop_cons_new item rest ex st hnotex]
    cases n with
    | zero => simp
    | succ n2 =>
      have hn2 : rest[n2]? = some i := by simpa using hn
      have hfresh2 : ∀ j ∈ rest, j.uploadPath ∉ item.uploadPath :: ex := by
        intro j hj hjin
        rcases List.mem_cons.mp hjin with heq | hjex
        · have hjm : j.uploadPath ∈ List.map (fun i => i.uploadPath) rest :=
            List.mem_map.mpr ⟨j, hj, rfl⟩
          exact hnd.1 (heq ▸ hjm)
        · exact hfresh j (List.mem_cons_of_mem item hj) hjex
      simpa using ih hnd.2 (item.uploadPath :: ex) (item.uploadPath :: st) hfresh2 n2 i hn2

/-- C7: the orchestrator lists existing objects once before any write;
every manifest item whose uploadKey is in that listing is counted as
skipped and no upload call is made for a key already present; and a
second run over the unchanged manifest against the store produced by a
completed first run performs zero uploads, with every item resolving
via the skip cache. -/
theorem orchestrator_idempotent (assets : List AssetItem) (store : List Str) :
    (∀ (n : Nat) (i : AssetItem), assets[n]? = some i → i.uploadPath ∈ store →
      (runOrchestrator assets (Except.ok store) store).actions[n]? = some false) ∧
    (∀ x ∈ (runOrchestrator assets (Except.ok store) store).uploadedKeys, x ∉ store) ∧
    runOrchestrator assets
        (Except.ok (runOrchestrator assets (Except.ok store) store).store)
        (runOrchestrator assets (Except.ok store) store).store =
      ⟨0, assets.length, List.replicate assets.length false, [],
        (runOrchestrator assets (Except.ok store) store).store⟩ := by
  refine ⟨?_, ?_, ?_⟩
  · intro n i hn hin
    exact runLoop_skip_actions assets store store n i hn hin
  · intro x hx
    exact runLoop_uploadedKeys_fresh assets store store x hx
  · apply runLoop_all_skip
    intro i hi
    exact runLoop_keys_in_store assets store store (fun x hx => hx) i hi

/-- C7 witness: one public image item, empty store: the first run
uploads it, the second run skips everything. -/
theorem orchestrator_idempotent_witness :
    runOrchestrator [fullImageItem (strL "/p/a.jpg") (strL "images/a.jpg") 1 Source.public]
        (Except.ok (runOrchestrator
          [fullImageItem (strL "/p/a.jpg") (strL "images/a.jpg") 1 Source.public]
          (Except.ok []) []).store)
        (runOrchestrator
          [fullImageItem (strL "/p/a.jpg") (strL "images/a.jpg") 1 Source.public]
          (Except.ok []) []).store =
      ⟨0, 1, [false], [],
        (runOrchestrator
          [fullImageItem (strL "/p/a.jpg") (strL "images/a.jpg") 1 Source.public]
          (Except.ok []) []).store⟩ :=
  (orchestrator_idempotent
    [fullImageItem (strL "/p/a.jpg") (strL "images/a.jpg") 1 Source.public] []).2.2

/-- C10 counterexample: with a failed listing, two manifest rows whose
distinct storagePaths canonicalize to the same uploadKey (a raw
Japanese basename and its percent-encoded spelling) produce only two
uploads for the four manifest items: the duplicates are skipped through
the in-run cache, so not every item is uploaded. -/
theorem listing_failure_counterexample :
    (runOrchestrator (collectAssets
        ⟨[⟨strL "/l/あ.jpg", strL "city_images/あ.jpg", 1⟩,
          ⟨strL "/l/%E3%81%82.jpg", strL "city_images/%E3%81%82.jpg", 1⟩], [], [], []⟩)
      (Except.error (strL "listing failed")) []).uploaded = 2 ∧
    (collectAssets
        ⟨[⟨strL "/l/あ.jpg", strL "city_images/あ.jpg", 1⟩,
          ⟨strL "/l/%E3%81%82.jpg", strL "city_images/%E3%81%82.jpg", 1⟩], [], [], []⟩).length = 4 ∧
    (runOrchestrator (collectAssets
        ⟨[⟨strL "/l/あ.jpg", strL "city_images/あ.jpg", 1⟩,
          ⟨strL "/l/%E3%81%82.jpg", strL "city_images/%E3%81%82.jpg", 1⟩], [], [], []⟩)
      (Except.error (strL "listing failed")) []).actions = [true, false, true, false] := by
  refine ⟨?_, ?_, ?_⟩ <;> decide

/-- C10 amended: on listing failure the run proceeds exactly as with an
empty skip-cache; every manifest item's uploadKey is uploaded (always
with upsert) at some point of the run, and when the manifest's
uploadKeys are pairwise distinct every single item is uploaded rather
than skipped; an item whose uploadKey repeats an earlier item's is
skipped via the in-run write-through cache. -/
theorem listing_failure_amended (assets : List AssetItem) (store : List Str) :
    runOrchestrator assets (Except.error (strL "listing failed")) store =
      runOrchestrator assets (Except.ok []) store ∧
    (∀ i ∈ assets, i.uploadPath ∈
      (runOrchestrator assets (Except.error (strL "listing failed")) store).uploadedKeys) ∧
    ((assets.map (fun i => i.uploadPath)).Nodup →
      ∀ (n : Nat) (i : AssetItem), assets[n]? = some i →
        (runOrchestrator assets
          (Except.error (strL "listing failed")) store).actions[n]? = some true) ∧
    (∀ ct : Option Str, (mkUploadOptions ct).upsert = true) := by
  refine ⟨rfl, ?_, ?_, fun _ => rfl⟩
  · intro i hi
    rcases runLoop_keys_covered assets [] store i hi with hin | hup
    · simp at hin
    · exact hup
  · intro hnd n i hn
    exact runLoop_all_upload assets hnd [] store (by simp) n i hn

/-- C10 witness: with a failed listing and two distinct-key items, both
items are uploaded. -/
theorem listing_failure_amended_witness :
    (fullImageItem (strL "/p/a.jpg") (strL "images/a.jpg") 1 Source.public).uploadPath ∈
      (runOrchestrator
        [fullImageItem (strL "/p/a.jpg") (strL "images/a.jpg") 1 Source.public,
         fullImageItem (strL "/p/b.jpg") (strL "images/b.jpg") 1 Source.public]
        (Except.error (strL "listing failed")) []).uploadedKeys ∧
    (runOrchestrator
        [fullImageItem (strL "/p/a.jpg") (strL "images/a.jpg") 1 Source.public,
         fullImageItem (strL "/p/b.jpg") (strL "images/b.jpg") 1 Source.public]
        (Except.error (strL "listing failed")) []).actions[0]? = some true :=
  ⟨(listing_failure_amended
      [fullImageItem (strL "/p/a.jpg") (strL "images/a.jpg") 1 Source.public,
       fullImageItem (strL "/p/b.jpg") (strL "images/b.jpg") 1 Source.public] []).2.1
      (fullImageItem (strL "/p/a.jpg") (strL "images/a.jpg") 1 Source.public)
      (by decide),
   (listing_failure_amended
      [fullImageItem (strL "/p/a.jpg") (strL "images/a.jpg") 1 Source.public,
       fullImageItem (strL "/p/b.jpg") (strL "images/b.jpg") 1 Source.public] []).2.2.1
      (by decide) 0
      (fullImageItem (strL "/p/a.jpg") (strL "images/a.jpg") 1 Source.public)
      (by decide)⟩

end Migrate

theorem getElem?_single {α : Type} (a x : α) (n : Nat)
    (h : [a][n]? = some x) : n = 0 ∧ x = a := by
  cases n with
  | zero =>
    simp at h
    exact ⟨rfl, h.symm⟩
  | succ n1 => simp at h

theorem getElem?_pair {α : Type} (a b x : α) (n : Nat)
    (h : [a, b][n]? = some x) : (n = 0 ∧ x = a) ∨ (n = 1 ∧ x = b) := by
  cases n with
  | zero =>
    simp at h
    exact Or.inl ⟨rfl, h.symm⟩
  | succ n1 =>
    cases n1 with
    | zero =>
      simp at h
      exact Or.inr ⟨rfl, h.symm⟩
    | succ n2 => simp at h

theorem getElem?_cons1 {α : Type} (a x : α) (l : List α) (n : Nat)
    (h : (a :: l)[n]? = some x) :
    (n = 0 ∧ x = a) ∨ (∃ n2, n = n2 + 1 ∧ l[n2]? = some x) := by
  cases n with
  | zero =>
    simp at h
    exact Or.inl ⟨rfl, h.symm⟩
  | succ n1 =>
    simp at h
    exact Or.inr ⟨n1, rfl, h⟩

theorem getElem?_cons2 {α : Type} (a b x : α) (l : List α) (n : Nat)
    (h : (a :: b :: l)[n]? = some x) :
    (n = 0 ∧ x = a) ∨ (n = 1 ∧ x = b) ∨ (∃ n2, n = n2 + 2 ∧ l[n2]? = some x) := by
  cases n with
  | zero =>
    simp at h
    exact Or.inl ⟨rfl, h.symm⟩
  | succ n1 =>
    cases n1 with
    | zero =>
      simp at h
      exact Or.inr (Or.inl ⟨rfl, h.symm⟩)
    | succ n2 =>
      simp at h
      exact Or.inr (Or.inr ⟨n2, rfl, h⟩)

namespace Migrate

theorem parseJson_transient {m : Str} (h : matchParseJson m = true) :
    matchTransient m = true := by
  unfold matchTransient
  unfold matchParseJson at h
  rw [h]
  simp

theorem candLoop_spec (upl : Nat → Option Str) (exq : Nat → Bool) (uploadPath : Str)
    (att : Nat) :
    ∀ (cands : List (Option Str)) (idx : Nat) (st : MigSt) (cLen : Nat),
      idx + cands.length = cLen →
      CandSpec uploadPath att idx cLen st
        (candLoop upl exq uploadPath att cands idx st).1
        (candLoop upl exq uploadPath att cands idx st).2.1
        (candLoop upl exq uploadPath att cands idx st).2.2 := by
  intro cands
  induction cands with
  | nil =>
    intro idx st cLen hlen
    show CandSpec uploadPath att idx cLen st CandOutcome.fellThrough st []
    constructor
    · intro n a i opts res h
      simp at h
    · intro n a i opts res h
      simp at h
    · intro n ms
      simp
    · intro n pp nn x h
      simp at h
    · intro n pp nn h
      simp at h
    · intro n a i opts m h
      simp at h
    · intro h
      simp at h
    · intro fm h
      simp at h
    · intro n a i opts m h
      simp at h
    · intro _
      refine ⟨rfl, rfl, ?_⟩
      simpa using hlen
    · intro hlt
      have hic : idx = cLen := by simpa using hlen
      omega
  | cons ct rest ih =>
    intro idx st cLen hlen
    have hlen2 : idx + 1 + rest.length = cLen := by
      simp only [List.length_cons] at hlen
      omega
    have hidxlt : idx < cLen := by omega
    cases hres : upl st.upCount with
    | none =>
      have heq : candLoop upl exq uploadPath att (ct :: rest) idx st =
          (CandOutcome.success, ⟨st.upCount + 1, st.ecCount, st.lastError⟩,
           [MigEvent.upload att idx (mkUploadOptions ct) none]) := by
        simp [candLoop, hres]
      rw [heq]
      constructor
      · intro n a i opts res h
        obtain ⟨rfl, hx⟩ := getElem?_single _ _ _ h
        injection hx with h1 h2 h3 h4
      · intro n a i opts res h
        obtain ⟨rfl, hx⟩ := getElem?_single _ _ _ h
        injection hx with h1 h2 h3 h4
        subst h2
        exact ⟨Nat.le_refl i, hidxlt⟩
      · intro n ms h
        obtain ⟨rfl, hx⟩ := getElem?_single _ _ _ h
        simp at hx
      · intro n pp nn x h
        obtain ⟨rfl, hx⟩ := getElem?_single _ _ _ h
        simp at hx
      · intro n pp nn h
        obtain ⟨rfl, hx⟩ := getElem?_single _ _ _ h
        simp at hx
      · intro n a i opts m h
        obtain ⟨rfl, hx⟩ := getElem?_single _ _ _ h
        injection hx with h1 h2 h3 h4
        simp at h4
      · intro h
        simp at h
      · intro fm h
        simp at h
      · intro n a i opts m h
        obtain ⟨rfl, hx⟩ := getElem?_single _ _ _ h
        injection hx with h1 h2 h3 h4
        simp at h4
      · intro h
        simp at h
      · intro _
        exact ⟨mkUploadOptions ct, none, rfl⟩
    | some msg =>
      cases hpj : matchParseJson msg with
      | true =>
        cases hex : exq st.ecCount with
        | true =>
          have heq : candLoop upl exq uploadPath att (ct :: rest) idx st =
              (CandOutcome.success, ⟨st.upCount + 1, st.ecCount + 1, some msg⟩,
               [MigEvent.upload att idx (mkUploadOptions ct) (some msg),
                MigEvent.existCheck (splitObjectPath uploadPath).1
                  (splitObjectPath uploadPath).2 true]) := by
            simp [candLoop, hres, hpj, hex]
          rw [heq]
          constructor
          · intro n a i opts res h
            rcases getElem?_pair _ _ _ _ h with ⟨rfl, hx⟩ | ⟨rfl, hx⟩
            · injection hx with h1 h2 h3 h4
            · simp at hx
          · intro n a i opts res h
            rcases getElem?_pair _ _ _ _ h with ⟨rfl, hx⟩ | ⟨rfl, hx⟩
            · injection hx with h1 h2 h3 h4
              subst h2
              exact ⟨Nat.le_refl i, hidxlt⟩
            · simp at hx
          · intro n ms h
            rcases getElem?_pair _ _ _ _ h with ⟨rfl, hx⟩ | ⟨rfl, hx⟩ <;> simp at hx
          · intro n pp nn x h
            rcases getElem?_pair _ _ _ _ h with ⟨rfl, hx⟩ | ⟨rfl, hx⟩
            · simp at hx
            · injection hx with h1 h2 h3
              exact ⟨h1, h2⟩
          · intro n pp nn h
            rcases getElem?_pair _ _ _ _ h with ⟨rfl, hx⟩ | ⟨rfl, hx⟩
            · simp at hx
            · exact ⟨rfl, rfl⟩
          · intro n a i opts m h hm
            rcases getElem?_pair _ _ _ _ h with ⟨rfl, hx⟩ | ⟨rfl, hx⟩
            · exact ⟨true, by simp⟩
            · simp at hx
          · intro h
            simp at h
          · intro fm h
            simp at h
          · intro n a i opts m h htrF _
            rcases getElem?_pair _ _ _ _ h with ⟨rfl, hx⟩ | ⟨rfl, hx⟩
            · injection hx with h1 h2 h3 h4
              injection h4 with h5
              rw [h5, parseJson_transient hpj] at htrF
              simp at htrF
            · simp at hx
          · intro h
            simp at h
          · intro _
            exact ⟨mkUploadOptions ct, some msg, rfl⟩
        | false =>
          cases hcond : !rest.isEmpty && matchMime msg with
          | true =>
            have hrestne : rest ≠ [] := by
              have := (Bool.and_eq_true _ _).mp hcond
              simpa [List.isEmpty_iff] using this.1
            have hmime : matchMime msg = true := ((Bool.and_eq_true _ _).mp hcond).2
            have hlt : idx + 1 < cLen := by
              have := List.length_pos.mpr hrestne
              omega
            rcases hcl : candLoop upl exq uploadPath att rest (idx + 1)
                ⟨st.upCount + 1, st.ecCount + 1, some msg⟩ with ⟨o1, st4, dr⟩
            have hrec := ih (idx + 1) ⟨st.upCount + 1, st.ecCount + 1, some msg⟩ cLen
              (by omega)
            rw [hcl] at hrec
            have heq : candLoop upl exq uploadPath att (ct :: rest) idx st =
                (o1, st4,
                 MigEvent.upload att idx (mkUploadOptions ct) (some msg) ::
                   MigEvent.existCheck (splitObjectPath uploadPath).1
                     (splitObjectPath uploadPath).2 false :: dr) := by
              simp [candLoop, hres, hpj, hex, hcond, hcl]
            rw [heq]
            constructor
            · intro n a i opts res h
              rcases getElem?_cons2 _ _ _ _ _ h with ⟨rfl, hx⟩ | ⟨rfl, hx⟩ | ⟨n2, rfl, hx⟩
              · injection hx with h1 h2 h3 h4
              · simp at hx
              · exact hrec.rounds n2 a i opts res hx
            · intro n a i opts res h
              rcases getElem?_cons2 _ _ _ _ _ h with ⟨rfl, hx⟩ | ⟨rfl, hx⟩ | ⟨n2, rfl, hx⟩
              · injection hx with h1 h2 h3 h4
                subst h2
                exact ⟨Nat.le_refl i, hidxlt⟩
              · simp at hx
              · have := hrec.idxs n2 a i opts res hx
                exact ⟨by omega, this.2⟩
            · intro n ms h
              rcases getElem?_cons2 _ _ _ _ _ h with ⟨rfl, hx⟩ | ⟨rfl, hx⟩ | ⟨n2, rfl, hx⟩
              · simp at hx
              · simp at hx
              · exact hrec.noSleep n2 ms hx
            · intro n pp nn x h
              rcases getElem?_cons2 _ _ _ _ _ h with ⟨rfl, hx⟩ | ⟨rfl, hx⟩ | ⟨n2, rfl, hx⟩
              · simp at hx
              · injection hx with h1 h2 h3
                exact ⟨h1, h2⟩
              · exact hrec.ecParams n2 pp nn x hx
            · intro n pp nn h
              rcases getElem?_cons2 _ _ _ _ _ h with ⟨rfl, hx⟩ | ⟨rfl, hx⟩ | ⟨n2, rfl, hx⟩
              · simp at hx
              · injection hx with h1 h2 h3
                simp at h3
              · have := hrec.ecTrue n2 pp nn hx
                refine ⟨this.1, ?_⟩
                simp only [List.length_cons, this.2]
            · intro n a i opts m h hm
              rcases getElem?_cons2 _ _ _ _ _ h with ⟨rfl, hx⟩ | ⟨rfl, hx⟩ | ⟨n2, rfl, hx⟩
              · exact ⟨false, by simp⟩
              · simp at hx
              · obtain ⟨x, hx2⟩ := hrec.parseAdj n2 a i opts m hx hm
                exact ⟨x, by simpa using hx2⟩
            · intro h
              obtain ⟨n2, i2, opts2, m2, hx, htr⟩ := hrec.transientWitness h
              exact ⟨n2 + 2, i2, opts2, m2, by simpa using hx, htr⟩
            · intro fm h
              obtain ⟨n2, i2, opts2, m2, hx, hl, hfm, htr, hle⟩ := hrec.fatalSpec fm h
              exact ⟨n2 + 2, i2, opts2, m2, by simpa using hx,
                by simp only [List.length_cons, hl], hfm, htr, hle⟩
            · intro n a i opts m h htrF hniceF
              rcases getElem?_cons2 _ _ _ _ _ h with ⟨rfl, hx⟩ | ⟨rfl, hx⟩ | ⟨n2, rfl, hx⟩
              · injection hx with h1 h2 h3 h4
                injection h4 with h5
                subst h2
                subst h5
                exact absurd ⟨hmime, hlt⟩ hniceF
              · simp at hx
              · have := hrec.badFatal n2 a i opts m hx htrF hniceF
                exact ⟨this.1, by simp only [List.length_cons, this.2]⟩
            · intro h
              obtain ⟨_, _, hIdx⟩ := hrec.fell h
              omega
            · intro _
              exact ⟨mkUploadOptions ct, some msg, by simp⟩
          | false =>
            have htr : matchTransient msg = true := parseJson_transient hpj
            have heq : candLoop upl exq uploadPath att (ct :: rest) idx st =
                (CandOutcome.transient, ⟨st.upCount + 1, st.ecCount + 1, some msg⟩,
                 [MigEvent.upload att idx (mkUploadOptions ct) (some msg),
                  MigEvent.existCheck (splitObjectPath uploadPath).1
                    (splitObjectPath uploadPath).2 false]) := by
              simp [candLoop, hres, hpj, hex, hcond, htr]
            rw [heq]
            constructor
            · intro n a i opts res h
              rcases getElem?_pair _ _ _ _ h with ⟨rfl, hx⟩ | ⟨rfl, hx⟩
              · injection hx with h1 h2 h3 h4
              · simp at hx
            · intro n a i opts res h
              rcases getElem?_pair _ _ _ _ h with ⟨rfl, hx⟩ | ⟨rfl, hx⟩
              · injection hx with h1 h2 h3 h4
                subst h2
                exact ⟨Nat.le_refl i, hidxlt⟩
              · simp at hx
            · intro n ms h
              rcases getElem?_pair _ _ _ _ h with ⟨rfl, hx⟩ | ⟨rfl, hx⟩ <;> simp at hx
            · intro n pp nn x h
              rcases getElem?_pair _ _ _ _ h with ⟨rfl, hx⟩ | ⟨rfl, hx⟩
              · simp at hx
              · injection hx with h1 h2 h3
                exact ⟨h1, h2⟩
            · intro n pp nn h
              rcases getElem?_pair _ _ _ _ h with ⟨rfl, hx⟩ | ⟨rfl, hx⟩
              · simp at hx
              · injection hx with h1 h2 h3
                simp at h3
            · intro n a i opts m h hm
              rcases getElem?_pair _ _ _ _ h with ⟨rfl, hx⟩ | ⟨rfl, hx⟩
              · exact ⟨false, by simp⟩
              · simp at hx
            · intro _
              exact ⟨0, idx, mkUploadOptions ct, msg, by simp, htr⟩
            · intro fm h
              simp at h
            · intro n a i opts m h htrF _
              rcases getElem?_pair _ _ _ _ h with ⟨rfl, hx⟩ | ⟨rfl, hx⟩
              · injection hx with h1 h2 h3 h4
                injection h4 with h5
                rw [h5, htr] at htrF
                simp at htrF
              · simp at hx
            · intro h
              simp at h
            · intro _
              exact ⟨mkUploadOptions ct, some msg, rfl⟩
      | false =>
        cases hcond : !rest.isEmpty && matchMime msg with
        | true =>
          have hrestne : rest ≠ [] := by
            have := (Bool.and_eq_true _ _).mp hcond
            simpa [List.isEmpty_iff] using this.1
          have hmime : matchMime msg = true := ((Bool.and_eq_true _ _).mp hcond).2
          have hlt : idx + 1 < cLen := by
            have := List.length_pos.mpr hrestne
            omega
          rcases hcl : candLoop upl exq uploadPath att rest (idx + 1)
              ⟨st.upCount + 1, st.ecCount, some msg⟩ with ⟨o1, st4, dr⟩
          have hrec := ih (idx + 1) ⟨st.upCount + 1, st.ecCount, some msg⟩ cLen (by omega)
          rw [hcl] at hrec
          have heq : candLoop upl exq uploadPath att (ct :: rest) idx st =
              (o1, st4,
               MigEvent.upload att idx (mkUploadOptions ct) (some msg) :: dr) := by
            simp [candLoop, hres, hpj, hcond, hcl]
          rw [heq]
          constructor
          · intro n a i opts res h
            rcases getElem?_cons1 _ _ _ _ h with ⟨rfl, hx⟩ | ⟨n2, rfl, hx⟩
            · injection hx with h1 h2 h3 h4
            · exact hrec.rounds n2 a i opts res hx
          · intro n a i opts res h
            rcases getElem?_cons1 _ _ _ _ h with ⟨rfl, hx⟩ | ⟨n2, rfl, hx⟩
            · injection hx with h1 h2 h3 h4
              subst h2
              exact ⟨Nat.le_refl i, hidxlt⟩
            · have := hrec.idxs n2 a i opts res hx
              exact ⟨by omega, this.2⟩
          · intro n ms h
            rcases getElem?_cons1 _ _ _ _ h with ⟨rfl, hx⟩ | ⟨n2, rfl, hx⟩
            · simp at hx
            · exact hrec.noSleep n2 ms hx
          · intro n pp nn x h
            rcases getElem?_cons1 _ _ _ _ h with ⟨rfl, hx⟩ | ⟨n2, rfl, hx⟩
            · simp at hx
            · exact hrec.ecParams n2 pp nn x hx
          · intro n pp nn h
            rcases getElem?_cons1 _ _ _ _ h with ⟨rfl, hx⟩ | ⟨n2, rfl, hx⟩
            · simp at hx
            · have := hrec.ecTrue n2 pp nn hx
              refine ⟨this.1, ?_⟩
              simp only [List.length_cons, this.2]
          · intro n a i opts m h hm
            rcases getElem?_cons1 _ _ _ _ h with ⟨rfl, hx⟩ | ⟨n2, rfl, hx⟩
            · injection hx with h1 h2 h3 h4
              injection h4 with h5
              rw [h5, hpj] at hm
              simp at hm
            · obtain ⟨x, hx2⟩ := hrec.parseAdj n2 a i opts m hx hm
              exact ⟨x, by simpa using hx2⟩
          · intro h
            obtain ⟨n2, i2, opts2, m2, hx, htr2⟩ := hrec.transientWitness h
            exact ⟨n2 + 1, i2, opts2, m2, by simpa using hx, htr2⟩
          · intro fm h
            obtain ⟨n2, i2, opts2, m2, hx, hl, hfm, htr2, hle⟩ := hrec.fatalSpec fm h
            exact ⟨n2 + 1, i2, opts2, m2, by simpa using hx,
              by simp only [List.length_cons, hl], hfm, htr2, hle⟩
          · intro n a i opts m h htrF hniceF
            rcases getElem?_cons1 _ _ _ _ h with ⟨rfl, hx⟩ | ⟨n2, rfl, hx⟩
            · injection hx with h1 h2 h3 h4
              injection h4 with h5
              subst h2
              subst h5
              exact absurd ⟨hmime, hlt⟩ hniceF
            · have := hrec.badFatal n2 a i opts m hx htrF hniceF
              exact ⟨this.1, by simp only [List.length_cons, this.2]⟩
          · intro h
            obtain ⟨_, _, hIdx⟩ := hrec.fell h
            omega
          · intro _
            exact ⟨mkUploadOptions ct, some msg, by simp⟩
        | false =>
          cases htr : matchTransient msg with
          | true =>
            have heq : candLoop upl exq uploadPath att (ct :: rest) idx st =
                (CandOutcome.transient, ⟨st.upCount + 1, st.ecCount, some msg⟩,
                 [MigEvent.upload att idx (mkUploadOptions ct) (some msg)]) := by
              simp [candLoop, hres, hpj, hcond, htr]
            rw [heq]
            constructor
            · intro n a i opts res h
              obtain ⟨rfl, hx⟩ := getElem?_single _ _ _ h
              injection hx with h1 h2 h3 h4
            · intro n a i opts res h
              obtain ⟨rfl, hx⟩ := getElem?_single _ _ _ h
              injection hx with h1 h2 h3 h4
              subst h2
              exact ⟨Nat.le_refl i, hidxlt⟩
            · intro n ms h
              obtain ⟨rfl, hx⟩ := getElem?_single _ _ _ h
              simp at hx
            · intro n pp nn x h
              obtain ⟨rfl, hx⟩ := getElem?_single _ _ _ h
              simp at hx
            · intro n pp nn h
              obtain ⟨rfl, hx⟩ := getElem?_single _ _ _ h
              simp at hx
            · intro n a i opts m h hm
              obtain ⟨rfl, hx⟩ := getElem?_single _ _ _ h
              injection hx with h1 h2 h3 h4
              injection h4 with h5
              rw [h5, hpj] at hm
              simp at hm
            · intro _
              exact ⟨0, idx, mkUploadOptions ct, msg, by simp, htr⟩
            · intro fm h
              simp at h
            · intro n a i opts m h htrF _
              obtain ⟨rfl, hx⟩ := getElem?_single _ _ _ h
              injection hx with h1 h2 h3 h4
              injection h4 with h5
              rw [h5, htr] at htrF
              simp at htrF
            · intro h
              simp at h
            · intro _
              exact ⟨mkUploadOptions ct, some msg, rfl⟩
          | false =>
            have heq : candLoop upl exq uploadPath att (ct :: rest) idx st =
                (CandOutcome.fatal (uploadFailedMsg uploadPath (some msg)),
                 ⟨st.upCount + 1, st.ecCount, some msg⟩,
                 [MigEvent.upload att idx (mkUploadOptions ct) (some msg)]) := by
              simp [candLoop, hres, hpj, hcond, htr]
            rw [heq]
            constructor
            · intro n a i opts res h
              obtain ⟨rfl, hx⟩ := getElem?_single _ _ _ h
              injection hx with h1 h2 h3 h4
            · intro n a i opts res h
              obtain ⟨rfl, hx⟩ := getElem?_single _ _ _ h
              injection hx with h1 h2 h3 h4
              subst h2
              exact ⟨Nat.le_refl i, hidxlt⟩
            · intro n ms h
              obtain ⟨rfl, hx⟩ := getElem?_single _ _ _ h
              simp at hx
            · intro n pp nn x h
              obtain ⟨rfl, hx⟩ := getElem?_single _ _ _ h
              simp at hx
            · intro n pp nn h
              obtain ⟨rfl, hx⟩ := getElem?_single _ _ _ h
              simp at hx
            · intro n a i opts m h hm
              obtain ⟨rfl, hx⟩ := getElem?_single _ _ _ h
              injection hx with h1 h2 h3 h4
              injection h4 with h5
              rw [h5, hpj] at hm
              simp at hm
            · intro h
              simp at h
            · intro fm h
              injection h with h1
              exact ⟨0, idx, mkUploadOptions ct, msg, by simp, rfl, h1.symm, htr, rfl⟩
            · intro n a i opts m h htrF _
              obtain ⟨rfl, hx⟩ := getElem?_single _ _ _ h
              injection hx with h1 h2 h3 h4
              injection h4 with h5
              subst h5
              exact ⟨rfl, rfl⟩
            · intro h
              simp at h
            · intro _
              exact ⟨mkUploadOptions ct, some msg, rfl⟩

end Migrate

theorem getElem?_append_cons {α : Type} (l1 : List α) (b x : α) (l2 : List α) (n : Nat)
    (h : (l1 ++ b :: l2)[n]? = some x) :
    (n < l1.length ∧ l1[n]? = some x) ∨ (n = l1.length ∧ x = b) ∨
      (∃ n2, n = l1.length + 1 + n2 ∧ l2[n2]? = some x) := by
  by_cases h1 : n < l1.length
  · rw [List.getElem?_append_left h1] at h
    exact Or.inl ⟨h1, h⟩
  · rw [List.getElem?_append_right (by omega)] at h
    obtain ⟨k, hk⟩ := Nat.exists_eq_add_of_le (Nat.le_of_not_lt h1)
    have hnk : n - l1.length = k := by omega
    rw [hnk] at h
    cases k with
    | zero =>
      simp at h
      exact Or.inr (Or.inl ⟨by omega, h.symm⟩)
    | succ k2 =>
      rw [List.getElem?_cons_succ] at h
      exact Or.inr (Or.inr ⟨k2, by omega, h⟩)

theorem getElem?_append_mid {α : Type} (l1 : List α) (b : α) (l2 : List α) :
    (l1 ++ b :: l2)[l1.length]? = some b := by
  rw [List.getElem?_append_right (Nat.le_refl _)]
  simp

theorem getElem?_append_after {α : Type} (l1 : List α) (b : α) (l2 : List α) (n : Nat) :
    (l1 ++ b :: l2)[l1.length + 1 + n]? = l2[n]? := by
  rw [List.getElem?_append_right (by omega)]
  have h2 : l1.length + 1 + n - l1.length = n + 1 := by omega
  rw [h2, List.getElem?_cons_succ]

namespace Migrate

theorem uploadAttempts_spec (upl : Nat → Option Str) (exq : Nat → Bool) (uploadPath : Str)
    (cands : List (Option Str)) :
    ∀ (fuel att : Nat) (st : MigSt),
      AttSpec uploadPath att fuel cands.length st
        (uploadAttempts upl exq uploadPath cands fuel att st).1
        (uploadAttempts upl exq uploadPath cands fuel att st).2.1
        (uploadAttempts upl exq uploadPath cands fuel att st).2.2 := by
  intro fuel
  induction fuel with
  | zero =>
    intro att st
    show AttSpec uploadPath att 0 cands.length st none st []
    constructor
    · intro n a i opts res h
      simp at h
    · intro n a i opts res h
      simp at h
    · intro n pp nn x h
      simp at h
    · intro n pp nn h
      simp at h
    · intro n a i opts m h
      simp at h
    · intro n ms h
      simp at h
    · intro n a i opts res h
      simp at h
    · intro n a i opts m h
      simp at h
    · intro fm h
      simp at h
    · intro _ h2
      exact absurd h2 (by omega)
  | succ f ih =>
    intro att st
    rcases hcl : candLoop upl exq uploadPath att cands 0 st with ⟨o, st1, evs1⟩
    have hspec := candLoop_spec upl exq uploadPath att cands 0 st cands.length (by omega)
    rw [hcl] at hspec
    cases o with
    | success =>
      have heq : uploadAttempts upl exq uploadPath cands (f + 1) att st =
          (some (Except.ok ()), st1, evs1) := by
        simp [uploadAttempts, hcl]
      rw [heq]
      constructor
      · intro n a i opts res h
        have := hspec.rounds n a i opts res h
        omega
      · intro n a i opts res h
        exact (hspec.idxs n a i opts res h).2
      · intro n pp nn x h
        exact hspec.ecParams n pp nn x h
      · intro n pp nn h
        rfl
      · intro n a i opts m h hm
        exact hspec.parseAdj n a i opts m h hm
      · intro n ms h
        exact absurd h (hspec.noSleep n ms)
      · intro n a i opts res h b hb1 hb2
        have := hspec.rounds n a i opts res h
        omega
      · intro n a i opts m h htrF hniceF
        have := (hspec.badFatal n a i opts m h htrF hniceF).1
        simp at this
      · intro fm h
        simp at h
      · intro h1 _
        exact hspec.headUpload (by omega)
    | fatal m =>
      have heq : uploadAttempts upl exq uploadPath cands (f + 1) att st =
          (some (Except.error m), st1, evs1) := by
        simp [uploadAttempts, hcl]
      rw [heq]
      constructor
      · intro n a i opts res h
        have := hspec.rounds n a i opts res h
        omega
      · intro n a i opts res h
        exact (hspec.idxs n a i opts res h).2
      · intro n pp nn x h
        exact hspec.ecParams n pp nn x h
      · intro n pp nn h
        have := (hspec.ecTrue n pp nn h).1
        simp at this
      · intro n a i opts m2 h hm
        exact hspec.parseAdj n a i opts m2 h hm
      · intro n ms h
        exact absurd h (hspec.noSleep n ms)
      · intro n a i opts res h b hb1 hb2
        have := hspec.rounds n a i opts res h
        omega
      · intro n a i opts m2 h htrF hniceF
        obtain ⟨h1, hlen⟩ := hspec.badFatal n a i opts m2 h htrF hniceF
        injection h1 with hm2
        exact ⟨by rw [hm2], hlen⟩
      · intro fm h
        have hfm : m = fm := by simpa using h
        subst hfm
        obtain ⟨n1, i1, opts1, m2, _, _, hfmEq, htr2, hle⟩ := hspec.fatalSpec m rfl
        exact ⟨m2, hle, htr2, hfmEq⟩
      · intro h1 _
        exact hspec.headUpload (by omega)
    | fellThrough =>
      obtain ⟨hevs, hst, hidx0⟩ := hspec.fell rfl
      have heq : uploadAttempts upl exq uploadPath cands (f + 1) att st =
          (none, st1, evs1) := by
        simp [uploadAttempts, hcl]
      rw [heq, hevs]
      constructor
      · intro n a i opts res h
        simp at h
      · intro n a i opts res h
        simp at h
      · intro n pp nn x h
        simp at h
      · intro n pp nn h
        simp at h
      · intro n a i opts m h
        simp at h
      · intro n ms h
        simp at h
      · intro n a i opts res h
        simp at h
      · intro n a i opts m h
        simp at h
      · intro fm h
        simp at h
      · intro h1 _
        exact absurd h1 (by omega)
    | transient =>
      have hclpos : 0 < cands.length := by
        obtain ⟨n1, i1, opts1, m1, hev, _⟩ := hspec.transientWitness rfl
        have := (hspec.idxs n1 att i1 opts1 (some m1) hev).2
        omega
      by_cases hf0 : f = 0
      · subst hf0
        have heq : uploadAttempts upl exq uploadPath cands (0 + 1) att st =
            (none, st1, evs1) := by
          simp [uploadAttempts, hcl]
        rw [heq]
        constructor
        · intro n a i opts res h
          have := hspec.rounds n a i opts res h
          omega
        · intro n a i opts res h
          exact (hspec.idxs n a i opts res h).2
        · intro n pp nn x h
          exact hspec.ecParams n pp nn x h
        · intro n pp nn h
          have := (hspec.ecTrue n pp nn h).1
          simp at this
        · intro n a i opts m h hm
          exact hspec.parseAdj n a i opts m h hm
        · intro n ms h
          exact absurd h (hspec.noSleep n ms)
        · intro n a i opts res h b hb1 hb2
          have := hspec.rounds n a i opts res h
          omega
        · intro n a i opts m h htrF hniceF
          have := (hspec.badFatal n a i opts m h htrF hniceF).1
          simp at this
        · intro fm h
          simp at h
        · intro h1 _
          exact hspec.headUpload (by omega)
      · rcases hup : uploadAttempts upl exq uploadPath cands f (att + 1) st1 with ⟨r2, st2, evs2⟩
        have hind := ih (att + 1) st1
        rw [hup] at hind
        have heq : uploadAttempts upl exq uploadPath cands (f + 1) att st =
            (r2, st2, evs1 ++ MigEvent.sleep ((att + 1) * 1000) :: evs2) := by
          simp [uploadAttempts, hcl, hup, hf0]
        rw [heq]
        constructor
        · intro n a i opts res h
          rcases getElem?_append_cons _ _ _ _ _ h with ⟨_, h1⟩ | ⟨_, hx⟩ | ⟨n2, _, h2⟩
          · have := hspec.rounds n a i opts res h1
            omega
          · simp at hx
          · have := hind.rounds n2 a i opts res h2
            omega
        · intro n a i opts res h
          rcases getElem?_append_cons _ _ _ _ _ h with ⟨_, h1⟩ | ⟨_, hx⟩ | ⟨n2, _, h2⟩
          · exact (hspec.idxs n a i opts res h1).2
          · simp at hx
          · exact hind.idxs n2 a i opts res h2
        · intro n pp nn x h
          rcases getElem?_append_cons _ _ _ _ _ h with ⟨_, h1⟩ | ⟨_, hx⟩ | ⟨n2, _, h2⟩
          · exact hspec.ecParams n pp nn x h1
          · simp at hx
          · exact hind.ecParams n2 pp nn x h2
        · intro n pp nn h
          rcases getElem?_append_cons _ _ _ _ _ h with ⟨_, h1⟩ | ⟨_, hx⟩ | ⟨n2, _, h2⟩
          · have := (hspec.ecTrue n pp nn h1).1
            simp at this
          · simp at hx
          · exact hind.ecTrue n2 pp nn h2
        · intro n a i opts m h hm
          rcases getElem?_append_cons _ _ _ _ _ h with ⟨hlt, h1⟩ | ⟨_, hx⟩ | ⟨n2, hn2, h2⟩
          · obtain ⟨x, hx2⟩ := hspec.parseAdj n a i opts m h1 hm
            obtain ⟨hlt2, _⟩ := List.getElem?_eq_some.mp hx2
            exact ⟨x, by rw [List.getElem?_append_left hlt2]; exact hx2⟩
          · simp at hx
          · obtain ⟨x, hx2⟩ := hind.parseAdj n2 a i opts m h2 hm
            refine ⟨x, ?_⟩
            have hidx : n + 1 = evs1.length + 1 + (n2 + 1) := by omega
            rw [hidx, getElem?_append_after]
            exact hx2
        · intro n ms h
          rcases getElem?_append_cons _ _ _ _ _ h with ⟨_, h1⟩ | ⟨hn, hx⟩ | ⟨n2, hn2, h2⟩
          · exact absurd h1 (hspec.noSleep n ms)
          · injection hx with hms
            obtain ⟨opts, res, hh⟩ := hind.headUpload hclpos (by omega)
            refine ⟨att, Nat.le_refl att, by omega, hms, opts, res, ?_⟩
            have hidx : n + 1 = evs1.length + 1 + 0 := by omega
            rw [hidx, getElem?_append_after]
            exact hh
          · obtain ⟨a, ha1, ha2, hms, opts, res, hnext⟩ := hind.sleepAdj n2 ms h2
            refine ⟨a, by omega, by omega, hms, opts, res, ?_⟩
            have hidx : n + 1 = evs1.length + 1 + (n2 + 1) := by omega
            rw [hidx, getElem?_append_after]
            exact hnext
        · intro n a i opts res h b hb1 hb2
          rcases getElem?_append_cons _ _ _ _ _ h with ⟨_, h1⟩ | ⟨_, hx⟩ | ⟨n2, _, h2⟩
          · have := hspec.rounds n a i opts res h1
            omega
          · simp at hx
          · by_cases hbatt : b = att
            · subst hbatt
              obtain ⟨n1, i1, opts1, m1, hev, htr1⟩ := hspec.transientWitness rfl
              obtain ⟨hlt1, _⟩ := List.getElem?_eq_some.mp hev
              exact ⟨n1, i1, opts1, m1,
                by rw [List.getElem?_append_left hlt1]; exact hev, htr1⟩
            · obtain ⟨n3, i3, opts3, m3, hev, htr3⟩ :=
                hind.prevTransient n2 a i opts res h2 b (by omega) hb2
              refine ⟨evs1.length + 1 + n3, i3, opts3, m3, ?_, htr3⟩
              rw [getElem?_append_after]
              exact hev
        · intro n a i opts m h htrF hniceF
          rcases getElem?_append_cons _ _ _ _ _ h with ⟨_, h1⟩ | ⟨_, hx⟩ | ⟨n2, hn2, h2⟩
          · have := (hspec.badFatal n a i opts m h1 htrF hniceF).1
            simp at this
          · simp at hx
          · obtain ⟨hr, hlen⟩ := hind.badFatal n2 a i opts m h2 htrF hniceF
            simp only at hlen
            refine ⟨hr, ?_⟩
            rw [List.length_append]
            simp only [List.length_cons]
            omega
        · intro fm h
          exact hind.fatalSpec fm h
        · intro h1 _
          obtain ⟨opts, res, hh⟩ := hspec.headUpload (by omega)
          obtain ⟨hlt0, _⟩ := List.getElem?_eq_some.mp hh
          exact ⟨opts, res, by rw [List.getElem?_append_left hlt0]; exact hh⟩

theorem uploadWMF_spec (upl : Nat → Option Str) (exq : Nat → Bool)
    (localPath uploadPath : Str) :
    WMFSpec localPath uploadPath
      (uploadWithMimeFallback upl exq localPath uploadPath).1
      (uploadWithMimeFallback upl exq localPath uploadPath).2.1
      (uploadWithMimeFallback upl exq localPath uploadPath).2.2 := by
  rcases hua : uploadAttempts upl exq uploadPath (getContentTypeCandidates localPath) 4 0
    ⟨0, 0, none⟩ with ⟨ro, st0, evs⟩
  have hspec := uploadAttempts_spec upl exq uploadPath (getContentTypeCandidates localPath) 4 0
    ⟨0, 0, none⟩
  rw [hua] at hspec
  cases ro with
  | some r =>
    have htr : uploadWithMimeFallback upl exq localPath uploadPath = (r, st0, evs) := by
      simp only [uploadWithMimeFallback, hua]
    rw [htr]
    constructor
    · intro n a i opts res h
      have := hspec.rounds n a i opts res h
      omega
    · intro n a i opts res h
      exact hspec.idxs n a i opts res h
    · intro n pp nn x h
      exact hspec.ecParams n pp nn x h
    · intro n pp nn h
      have h2 := hspec.ecTrue n pp nn h
      injection h2
    · intro n a i opts m h hm
      exact hspec.parseAdj n a i opts m h hm
    · intro n ms h
      obtain ⟨a, _, ha2, hms, opts, res, hnext⟩ := hspec.sleepAdj n ms h
      exact ⟨a, by omega, hms, opts, res, hnext⟩
    · intro n a i opts res h b hb
      exact hspec.prevTransient n a i opts res h b (Nat.zero_le b) hb
    · intro n a i opts m h htrF hniceF
      obtain ⟨h1, hlen⟩ := hspec.badFatal n a i opts m h htrF hniceF
      injection h1 with h2
      exact ⟨h2, hlen⟩
    · intro fm m hout hle hpj
      subst hout
      obtain ⟨m2, hle2, htr2, _⟩ := hspec.fatalSpec fm rfl
      rw [hle] at hle2
      injection hle2 with hm
      rw [← hm] at htr2
      rw [parseJson_transient hpj] at htr2
      exact Bool.noConfusion htr2
  | none =>
    cases hle0 : st0.lastError with
    | none =>
      have htr : uploadWithMimeFallback upl exq localPath uploadPath =
          (Except.error (uploadFailedMsg uploadPath none), st0, evs) := by
        simp only [uploadWithMimeFallback, hua, hle0]
      rw [htr]
      constructor
      · intro n a i opts res h
        have := hspec.rounds n a i opts res h
        omega
      · intro n a i opts res h
        exact hspec.idxs n a i opts res h
      · intro n pp nn x h
        exact hspec.ecParams n pp nn x h
      · intro n pp nn h
        exact Option.noConfusion (hspec.ecTrue n pp nn h)
      · intro n a i opts m h hm
        exact hspec.parseAdj n a i opts m h hm
      · intro n ms h
        obtain ⟨a, _, ha2, hms, opts, res, hnext⟩ := hspec.sleepAdj n ms h
        exact ⟨a, by omega, hms, opts, res, hnext⟩
      · intro n a i opts res h b hb
        exact hspec.prevTransient n a i opts res h b (Nat.zero_le b) hb
      · intro n a i opts m h htrF hniceF
        exact Option.noConfusion (hspec.badFatal n a i opts m h htrF hniceF).1
      · intro fm m _ hle _
        rw [hle0] at hle
        exact Option.noConfusion hle
    | some m0 =>
      cases hpj0 : matchParseJson m0 with
      | false =>
        have htr : uploadWithMimeFallback upl exq localPath uploadPath =
            (Except.error (uploadFailedMsg uploadPath (some m0)), st0, evs) := by
          simp only [uploadWithMimeFallback, hua, hle0, hpj0, Bool.false_eq_true, if_false]
        rw [htr]
        constructor
        · intro n a i opts res h
          have := hspec.rounds n a i opts res h
          omega
        · intro n a i opts res h
          exact hspec.idxs n a i opts res h
        · intro n pp nn x h
          exact hspec.ecParams n pp nn x h
        · intro n pp nn h
          exact Option.noConfusion (hspec.ecTrue n pp nn h)
        · intro n a i opts m h hm
          exact hspec.parseAdj n a i opts m h hm
        · intro n ms h
          obtain ⟨a, _, ha2, hms, opts, res, hnext⟩ := hspec.sleepAdj n ms h
          exact ⟨a, by omega, hms, opts, res, hnext⟩
        · intro n a i opts res h b hb
          exact hspec.prevTransient n a i opts res h b (Nat.zero_le b) hb
        · intro n a i opts m h htrF hniceF
          exact Option.noConfusion (hspec.badFatal n a i opts m h htrF hniceF).1
        · intro fm m _ hle hpj
          rw [hle0] at hle
          injection hle with hm
          rw [hm] at hpj0
          rw [hpj] at hpj0
          exact Bool.noConfusion hpj0
      | true =>
        cases hex0 : exq st0.ecCount with
        | true =>
          have htr : uploadWithMimeFallback upl exq localPath uploadPath =
              (Except.ok (), ⟨st0.upCount, st0.ecCount + 1, st0.lastError⟩,
                evs ++ [MigEvent.existCheck (splitObjectPath uploadPath).1
                  (splitObjectPath uploadPath).2 true]) := by
            simp only [uploadWithMimeFallback, hua, hle0, hpj0, if_true, hex0]
          rw [htr]
          constructor
          · intro n a i opts res h
            rcases getElem?_append_cons _ _ _ _ _ h with ⟨_, h1⟩ | ⟨_, hx⟩ | ⟨n2, _, h2⟩
            · have := hspec.rounds n a i opts res h1
              omega
            · simp at hx
            · simp at h2
          · intro n a i opts res h
            rcases getElem?_append_cons _ _ _ _ _ h with ⟨_, h1⟩ | ⟨_, hx⟩ | ⟨n2, _, h2⟩
            · exact hspec.idxs n a i opts res h1
            · simp at hx
            · simp at h2
          · intro n pp nn x h
            rcases getElem?_append_cons _ _ _ _ _ h with ⟨_, h1⟩ | ⟨_, hx⟩ | ⟨n2, _, h2⟩
            · exact hspec.ecParams n pp nn x h1
            · injection hx with h3 h4 h5
              exact ⟨h3, h4⟩
            · simp at h2
          · intro n pp nn h
            rfl
          · intro n a i opts m h hm
            rcases getElem?_append_cons _ _ _ _ _ h with ⟨_, h1⟩ | ⟨_, hx⟩ | ⟨n2, _, h2⟩
            · obtain ⟨x, hx2⟩ := hspec.parseAdj n a i opts m h1 hm
              obtain ⟨hlt2, _⟩ := List.getElem?_eq_some.mp hx2
              exact ⟨x, by rw [List.getElem?_append_left hlt2]; exact hx2⟩
            · simp at hx
            · simp at h2
          · intro n ms h
            rcases getElem?_append_cons _ _ _ _ _ h with ⟨_, h1⟩ | ⟨_, hx⟩ | ⟨n2, _, h2⟩
            · obtain ⟨a, _, ha2, hms, opts, res, hnext⟩ := hspec.sleepAdj n ms h1
              obtain ⟨hlt2, _⟩ := List.getElem?_eq_some.mp hnext
              exact ⟨a, by omega, hms, opts, res,
                by rw [List.getElem?_append_left hlt2]; exact hnext⟩
            · simp at hx
            · simp at h2
          · intro n a i opts res h b hb
            rcases getElem?_append_cons _ _ _ _ _ h with ⟨_, h1⟩ | ⟨_, hx⟩ | ⟨n2, _, h2⟩
            · obtain ⟨n3, i3, opts3, m3, hev, htr3⟩ :=
                hspec.prevTransient n a i opts res h1 b (Nat.zero_le b) hb
              obtain ⟨hlt3, _⟩ := List.getElem?_eq_some.mp hev
              exact ⟨n3, i3, opts3, m3,
                by rw [List.getElem?_append_left hlt3]; exact hev, htr3⟩
            · simp at hx
            · simp at h2
          · intro n a i opts m h htrF hniceF
            rcases getElem?_append_cons _ _ _ _ _ h with ⟨_, h1⟩ | ⟨_, hx⟩ | ⟨n2, _, h2⟩
            · exact Option.noConfusion (hspec.badFatal n a i opts m h1 htrF hniceF).1
            · simp at hx
            · simp at h2
          · intro fm m hout _ _
            exact Except.noConfusion hout
        | false =>
          have htr : uploadWithMimeFallback upl exq localPath uploadPath =
              (Except.error (uploadFailedMsg uploadPath (some m0)),
                ⟨st0.upCount, st0.ecCount + 1, st0.lastError⟩,
                evs ++ [MigEvent.existCheck (splitObjectPath uploadPath).1
                  (splitObjectPath uploadPath).2 false]) := by
            simp only [uploadWithMimeFallback, hua, hle0, hpj0, if_true, hex0,
              Bool.false_eq_true, if_false]
          rw [htr]
          constructor
          · intro n a i opts res h
            rcases getElem?_append_cons _ _ _ _ _ h with ⟨_, h1⟩ | ⟨_, hx⟩ | ⟨n2, _, h2⟩
            · have := hspec.rounds n a i opts res h1
              omega
            · simp at hx
            · simp at h2
          · intro n a i opts res h
            rcases getElem?_append_cons _ _ _ _ _ h with ⟨_, h1⟩ | ⟨_, hx⟩ | ⟨n2, _, h2⟩
            · exact hspec.idxs n a i opts res h1
            · simp at hx
            · simp at h2
          · intro n pp nn x h
            rcases getElem?_append_cons _ _ _ _ _ h with ⟨_, h1⟩ | ⟨_, hx⟩ | ⟨n2, _, h2⟩
            · exact hspec.ecParams n pp nn x h1
            · injection hx with h3 h4 h5
              exact ⟨h3, h4⟩
            · simp at h2
          · intro n pp nn h
            rcases getElem?_append_cons _ _ _ _ _ h with ⟨_, h1⟩ | ⟨_, hx⟩ | ⟨n2, _, h2⟩
            · exact Option.noConfusion (hspec.ecTrue n pp nn h1)
            · injection hx with h3 h4 h5
              exact Bool.noConfusion h5
            · simp at h2
          · intro n a i opts m h hm
            rcases getElem?_append_cons _ _ _ _ _ h with ⟨_, h1⟩ | ⟨_, hx⟩ | ⟨n2, _, h2⟩
            · obtain ⟨x, hx2⟩ := hspec.parseAdj n a i opts m h1 hm
              obtain ⟨hlt2, _⟩ := List.getElem?_eq_some.mp hx2
              exact ⟨x, by rw [List.getElem?_append_left hlt2]; exact hx2⟩
            · simp at hx
            · simp at h2
          · intro n ms h
            rcases getElem?_append_cons _ _ _ _ _ h with ⟨_, h1⟩ | ⟨_, hx⟩ | ⟨n2, _, h2⟩
            · obtain ⟨a, _, ha2, hms, opts, res, hnext⟩ := hspec.sleepAdj n ms h1
              obtain ⟨hlt2, _⟩ := List.getElem?_eq_some.mp hnext
              exact ⟨a, by omega, hms, opts, res,
                by rw [List.getElem?_append_left hlt2]; exact hnext⟩
            · simp at hx
            · simp at h2
          · intro n a i opts res h b hb
            rcases getElem?_append_cons _ _ _ _ _ h with ⟨_, h1⟩ | ⟨_, hx⟩ | ⟨n2, _, h2⟩
            · obtain ⟨n3, i3, opts3, m3, hev, htr3⟩ :=
                hspec.prevTransient n a i opts res h1 b (Nat.zero_le b) hb
              obtain ⟨hlt3, _⟩ := List.getElem?_eq_some.mp hev
              exact ⟨n3, i3, opts3, m3,
                by rw [List.getElem?_append_left hlt3]; exact hev, htr3⟩
            · simp at hx
            · simp at h2
          · intro n a i opts m h htrF hniceF
            rcases getElem?_append_cons _ _ _ _ _ h with ⟨_, h1⟩ | ⟨_, hx⟩ | ⟨n2, _, h2⟩
            · exact Option.noConfusion (hspec.badFatal n a i opts m h1 htrF hniceF).1
            · simp at hx
            · simp at h2
          · intro fm m _ _ _
            have hlen : (evs ++ [MigEvent.existCheck (splitObjectPath uploadPath).1
                (splitObjectPath uploadPath).2 false]).length - 1 = evs.length := by
              simp
            rw [hlen]
            exact getElem?_append_mid evs _ []

/-- C8: whenever an upload attempt fails with a parse-json error, it is
immediately followed by an existence check; every existence check is the
list call for the object's parent prefix filtered by its final name
segment; a positive existence check makes the item succeed; and when the
item is declared failed while the last error is the ambiguous parse-json
case, the run's final event is one last existence check that returned
false. -/
theorem upload_ambiguous_recovery (upl : Nat → Option Str) (exq : Nat → Bool)
    (localPath uploadPath : Str) :
    (∀ (n a i : Nat) (opts : UploadOptions) (m : Str),
        (uploadWithMimeFallback upl exq localPath uploadPath).2.2[n]? =
          some (MigEvent.upload a i opts (some m)) →
        matchParseJson m = true →
        ∃ (x : Bool), (uploadWithMimeFallback upl exq localPath uploadPath).2.2[n + 1]? =
          some (MigEvent.existCheck (splitObjectPath uploadPath).1
            (splitObjectPath uploadPath).2 x)) ∧
    (∀ (n : Nat) (pp nn : Str) (x : Bool),
        (uploadWithMimeFallback upl exq localPath uploadPath).2.2[n]? =
          some (MigEvent.existCheck pp nn x) →
        pp = (splitObjectPath uploadPath).1 ∧ nn = (splitObjectPath uploadPath).2) ∧
    (∀ (n : Nat) (pp nn : Str),
        (uploadWithMimeFallback upl exq localPath uploadPath).2.2[n]? =
          some (MigEvent.existCheck pp nn true) →
        (uploadWithMimeFallback upl exq localPath uploadPath).1 = Except.ok ()) ∧
    (∀ (fm m : Str),
        (uploadWithMimeFallback upl exq localPath uploadPath).1 = Except.error fm →
        (uploadWithMimeFallback upl exq localPath uploadPath).2.1.lastError = some m →
        matchParseJson m = true →
        (uploadWithMimeFallback upl exq localPath uploadPath).2.2[
            (uploadWithMimeFallback upl exq localPath uploadPath).2.2.length - 1]? =
          some (MigEvent.existCheck (splitObjectPath uploadPath).1
            (splitObjectPath uploadPath).2 false)) :=
  ⟨(uploadWMF_spec upl exq localPath uploadPath).parseAdj,
   (uploadWMF_spec upl exq localPath uploadPath).ecParams,
   (uploadWMF_spec upl exq localPath uploadPath).ecTrue,
   (uploadWMF_spec upl exq localPath uploadPath).finalCheck⟩

theorem upload_ambiguous_recovery_witness :
    ∃ (x : Bool),
      (uploadWithMimeFallback
          (fun u => if u = 0 then some (strL "failed to parse JSON response") else none)
          (fun _ => true) (strL "a.png") (strL "images/a.png")).2.2[0 + 1]? =
        some (MigEvent.existCheck (splitObjectPath (strL "images/a.png")).1
          (splitObjectPath (strL "images/a.png")).2 x) :=
  (upload_ambiguous_recovery
      (fun u => if u = 0 then some (strL "failed to parse JSON response") else none)
      (fun _ => true) (strL "a.png") (strL "images/a.png")).1
    0 0 0 (mkUploadOptions (some (strL "image/png")))
    (strL "failed to parse JSON response") (by decide) (by decide)

/-- C9: uploadWithMimeFallback makes at most 4 rounds of attempts per
item with candidate indices in range; every backoff sleep lasts
(a+1)*1000 ms for some round a+1 = 1, 2, 3 and immediately precedes the
first upload of that round; every upload of a later round is justified
by a transient error in each earlier round; and an error that is
neither transient nor a MIME rejection with a remaining candidate
aborts the item at once (the failing upload is the trace's last event)
with the descriptive error message. -/
theorem upload_retry_policy (upl : Nat → Option Str) (exq : Nat → Bool)
    (localPath uploadPath : Str) :
    (∀ (n a i : Nat) (opts : UploadOptions) (res : Option Str),
        (uploadWithMimeFallback upl exq localPath uploadPath).2.2[n]? =
          some (MigEvent.upload a i opts res) →
        a < 4 ∧ i < (getContentTypeCandidates localPath).length) ∧
    (∀ (n ms : Nat),
        (uploadWithMimeFallback upl exq localPath uploadPath).2.2[n]? =
          some (MigEvent.sleep ms) →
        ∃ (a : Nat), a + 1 < 4 ∧ ms = (a + 1) * 1000 ∧
          ∃ (opts : UploadOptions) (res : Option Str),
            (uploadWithMimeFallback upl exq localPath uploadPath).2.2[n + 1]? =
              some (MigEvent.upload (a + 1) 0 opts res)) ∧
    (∀ (n a i : Nat) (opts : UploadOptions) (res : Option Str),
        (uploadWithMimeFallback upl exq localPath uploadPath).2.2[n]? =
          some (MigEvent.upload a i opts res) →
        ∀ (b : Nat), b < a → ∃ (n2 i2 : Nat) (opts2 : UploadOptions) (m2 : Str),
          (uploadWithMimeFallback upl exq localPath uploadPath).2.2[n2]? =
            some (MigEvent.upload b i2 opts2 (some m2)) ∧ matchTransient m2 = true) ∧
    (∀ (n a i : Nat) (opts : UploadOptions) (m : Str),
        (uploadWithMimeFallback upl exq localPath uploadPath).2.2[n]? =
          some (MigEvent.upload a i opts (some m)) →
        matchTransient m = false →
        ¬(matchMime m = true ∧ i + 1 < (getContentTypeCandidates localPath).length) →
        (uploadWithMimeFallback upl exq localPath uploadPath).1 =
          Except.error (uploadFailedMsg uploadPath (some m)) ∧
        (uploadWithMimeFallback upl exq localPath uploadPath).2.2.length = n + 1) :=
  ⟨fun n a i opts res h =>
    ⟨(uploadWMF_spec upl exq localPath uploadPath).rounds n a i opts res h,
     (uploadWMF_spec upl exq localPath uploadPath).idxs n a i opts res h⟩,
   (uploadWMF_spec upl exq localPath uploadPath).sleepAdj,
   (uploadWMF_spec upl exq localPath uploadPath).prevTransient,
   (uploadWMF_spec upl exq localPath uploadPath).badFatal⟩

theorem upload_retry_policy_witness :
    ∃ (a : Nat), a + 1 < 4 ∧ 1000 = (a + 1) * 1000 ∧
      ∃ (opts : UploadOptions) (res : Option Str),
        (uploadWithMimeFallback
            (fun u => if u = 0 then some (strL "network error") else none)
            (fun _ => false) (strL "a.png") (strL "images/a.png")).2.2[1 + 1]? =
          some (MigEvent.upload (a + 1) 0 opts res) :=
  (upload_retry_policy
      (fun u => if u = 0 then some (strL "network error") else none)
      (fun _ => false) (strL "a.png") (strL "images/a.png")).2.1
    1 1000 (by decide)

end Migrate

end Iwate
